import Mathlib

/-
Verification of the tiered cache and memory-retrieval core of Ayaka-Core.

The development shallowly embeds the two originating Python components:
  * ai_companion/services/cache_service.py  (CacheService, CacheEntry)
  * ai_companion/memory/memory_manager.py   (MemoryManager)
together with the slice of ai_companion/memory/chat_history_manager.py
(ChatHistoryManager) that MemoryManager consumes.

Modelling conventions:
  * Timestamps and TTLs are integers (a simulated clock standing in for
    time.time(); only comparisons and differences of timestamps matter).
  * A Python dict is an association list in insertion order with nodup
    keys; `d[k] = v` keeps the slot of an existing key and appends fresh
    keys at the end, exactly as CPython dicts do.
  * The SQLite table of the persistent tier is an association list keyed
    by the primary key; INSERT OR REPLACE and DELETE act on that key.
    json.dumps/json.loads round-trip the stored JSON payload, so the row
    stores the payload itself.
  * Python's stable sorts (list.sort / sorted) are modelled with
    List.insertionSort, which is a stable sort; a stable sort's output is
    uniquely determined by the ordering key and the input order, so this
    agrees with CPython's Timsort.
-/

/-! ### Association lists standing in for Python dicts / SQL tables -/

/-- Lookup of a key in an insertion-ordered association list. -/
def assocFind {β : Type} (k : String) : List (String × β) → Option β
  | [] => none
  | (k₁, v) :: rest => if k₁ = k then some v else assocFind k rest

/-- `d[k] = v` on a Python dict: overwrite in place, else append at the end. -/
def assocInsert {β : Type} (k : String) (v : β) : List (String × β) → List (String × β)
  | [] => [(k, v)]
  | (k₁, v₁) :: rest => if k₁ = k then (k, v) :: rest else (k₁, v₁) :: assocInsert k v rest

/-- `del d[k]` / `DELETE ... WHERE key = ?`: drop the binding of `k`. -/
def assocErase {β : Type} (k : String) (l : List (String × β)) : List (String × β) :=
  l.filter (fun p => !(decide (p.1 = k)))

/-- Keys of an association list, in insertion order. -/
def assocKeys {β : Type} (l : List (String × β)) : List String :=
  l.map Prod.fst

theorem assocKeys_nil {β : Type} : assocKeys ([] : List (String × β)) = [] := rfl

theorem assocKeys_cons {β : Type} (p : String × β) (l : List (String × β)) :
    assocKeys (p :: l) = p.1 :: assocKeys l := rfl

theorem mem_assocKeys {β : Type} {k : String} {l : List (String × β)} :
    k ∈ assocKeys l ↔ ∃ v, (k, v) ∈ l := by
  constructor
  · intro h
    obtain ⟨⟨k₁, v⟩, hm, he⟩ := List.mem_map.mp h
    subst he
    exact ⟨v, hm⟩
  · rintro ⟨v, hv⟩
    exact List.mem_map.mpr ⟨(k, v), hv, rfl⟩

theorem mem_assocKeys_filter {β : Type} {k : String} {q : String × β → Bool}
    {l : List (String × β)} (h : k ∈ assocKeys (l.filter q)) : k ∈ assocKeys l := by
  obtain ⟨v, hv⟩ := mem_assocKeys.mp h
  exact mem_assocKeys.mpr ⟨v, (List.mem_filter.mp hv).1⟩

theorem assocFind_eq_none {β : Type} (k : String) (l : List (String × β))
    (h : k ∉ assocKeys l) : assocFind k l = none := by
  induction l with
  | nil => rfl
  | cons p rest ih =>
    obtain ⟨k₁, v⟩ := p
    rw [assocKeys_cons, List.mem_cons, not_or] at h
    have hk : k₁ ≠ k := fun hh => h.1 hh.symm
    rw [assocFind, if_neg hk]
    exact ih h.2

theorem assocFind_mem {β : Type} {k : String} {l : List (String × β)} {v : β}
    (h : assocFind k l = some v) : (k, v) ∈ l := by
  induction l with
  | nil => simp [assocFind] at h
  | cons p rest ih =>
    obtain ⟨k₁, v₁⟩ := p
    by_cases hk : k₁ = k
    · rw [assocFind, if_pos hk] at h
      cases Option.some.inj h
      rw [hk]
      exact List.mem_cons_self _ _
    · rw [assocFind, if_neg hk] at h
      exact List.mem_cons_of_mem _ (ih h)

theorem assocFind_of_mem {β : Type} {k : String} {l : List (String × β)} {v : β}
    (hnd : (assocKeys l).Nodup) (h : (k, v) ∈ l) : assocFind k l = some v := by
  induction l with
  | nil => simp at h
  | cons p rest ih =>
    obtain ⟨k₁, v₁⟩ := p
    rw [assocKeys_cons, List.nodup_cons] at hnd
    rcases List.mem_cons.mp h with h₁ | h₁
    · cases h₁
      simp [assocFind]
    · have hk : k₁ ≠ k := by
        intro he; subst he
        exact hnd.1 (mem_assocKeys.mpr ⟨v, h₁⟩)
      rw [assocFind, if_neg hk]
      exact ih hnd.2 h₁

theorem mem_of_mem_assocInsert {β : Type} {k : String} {v : β} {l : List (String × β)} {p}
    (hnd : (assocKeys l).Nodup) :
    p ∈ assocInsert k v l → p = (k, v) ∨ (p ∈ l ∧ p.1 ≠ k) := by
  induction l with
  | nil => intro h; simp only [assocInsert, List.mem_singleton] at h; exact Or.inl h
  | cons q rest ih =>
    obtain ⟨k₁, v₁⟩ := q
    rw [assocKeys_cons, List.nodup_cons] at hnd
    intro h
    by_cases hk : k₁ = k
    · rw [assocInsert, if_pos hk] at h
      rcases List.mem_cons.mp h with h₁ | h₁
      · exact Or.inl h₁
      · refine Or.inr ⟨List.mem_cons_of_mem _ h₁, ?_⟩
        intro he
        apply hnd.1
        rw [hk]
        exact he ▸ mem_assocKeys.mpr ⟨p.2, by simpa using h₁⟩
    · rw [assocInsert, if_neg hk] at h
      rcases List.mem_cons.mp h with h₁ | h₁
      · subst h₁; exact Or.inr ⟨List.mem_cons_self _ _, hk⟩
      · rcases ih hnd.2 h₁ with h₂ | h₂
        · exact Or.inl h₂
        · exact Or.inr ⟨List.mem_cons_of_mem _ h₂.1, h₂.2⟩

theorem mem_assocInsert_self {β : Type} (k : String) (v : β) (l : List (String × β)) :
    (k, v) ∈ assocInsert k v l := by
  induction l with
  | nil => simp [assocInsert]
  | cons q rest ih =>
    obtain ⟨k₁, v₁⟩ := q
    by_cases hk : k₁ = k
    · rw [assocInsert, if_pos hk]
      exact List.mem_cons_self _ _
    · rw [assocInsert, if_neg hk]
      exact List.mem_cons_of_mem _ ih

theorem assocFind_assocInsert_self {β : Type} (k : String) (v : β) (l : List (String × β)) :
    assocFind k (assocInsert k v l) = some v := by
  induction l with
  | nil => simp [assocInsert, assocFind]
  | cons q rest ih =>
    obtain ⟨k₁, v₁⟩ := q
    by_cases hk : k₁ = k
    · rw [assocInsert, if_pos hk, assocFind, if_pos rfl]
    · rw [assocInsert, if_neg hk, assocFind, if_neg hk]
      exact ih

theorem assocKeys_assocInsert {β : Type} (k : String) (v : β) (l : List (String × β)) :
    assocKeys (assocInsert k v l) =
      if k ∈ assocKeys l then assocKeys l else assocKeys l ++ [k] := by
  induction l with
  | nil => simp [assocInsert, assocKeys]
  | cons q rest ih =>
    obtain ⟨k₁, v₁⟩ := q
    by_cases hk : k₁ = k
    · subst hk
      rw [assocInsert, if_pos rfl, assocKeys_cons, assocKeys_cons]
      simp
    · have hne : k ≠ k₁ := fun he => hk he.symm
      rw [assocInsert, if_neg hk, assocKeys_cons, assocKeys_cons, ih]
      by_cases hm : k ∈ assocKeys rest
      · simp [hm, hne]
      · simp [hm, hne]

theorem nodup_assocKeys_assocInsert {β : Type} (k : String) (v : β) (l : List (String × β))
    (hnd : (assocKeys l).Nodup) : (assocKeys (assocInsert k v l)).Nodup := by
  rw [assocKeys_assocInsert]
  by_cases hm : k ∈ assocKeys l
  · simpa [hm] using hnd
  · simp only [hm, if_false]
    exact List.Nodup.append hnd (List.nodup_singleton k) (by simpa using hm)

theorem assocFind_assocErase_self {β : Type} (k : String) (l : List (String × β)) :
    assocFind k (assocErase k l) = none := by
  induction l with
  | nil => rfl
  | cons p rest ih =>
    obtain ⟨k₁, v₁⟩ := p
    by_cases hk : k₁ = k
    · simpa [assocErase, List.filter_cons, hk] using ih
    · simpa [assocErase, List.filter_cons, hk, assocFind] using ih

theorem assocFind_filter {β : Type} (k : String) (q : String × β → Bool)
    (l : List (String × β)) (hnd : (assocKeys l).Nodup) :
    assocFind k (l.filter q) =
      match assocFind k l with
      | some v => if q (k, v) then some v else none
      | none => none := by
  induction l with
  | nil => rfl
  | cons p rest ih =>
    obtain ⟨k₁, v₁⟩ := p
    rw [assocKeys_cons, List.nodup_cons] at hnd
    by_cases hk : k₁ = k
    · subst hk
      have hrestf : assocFind k₁ (rest.filter q) = none :=
        assocFind_eq_none _ _ (fun hmem => hnd.1 (mem_assocKeys_filter hmem))
      by_cases hq : q (k₁, v₁)
      · simp [List.filter_cons, hq, assocFind]
      · simp [List.filter_cons, hq, assocFind, hrestf]
    · by_cases hq : q (k₁, v₁)
      · simp only [List.filter_cons, hq, if_pos, assocFind, if_neg hk]
        exact ih hnd.2
      · simp only [List.filter_cons, hq, Bool.false_eq_true, if_false, assocFind, if_neg hk]
        exact ih hnd.2

/-! ### Characters and strings: the Python string operations the core uses -/

/-- ASCII lowering, modelling Python `str.lower()` on the ASCII range
(the only range the specified behaviour exercises). -/
def lowerChar (c : Char) : Char :=
  if 65 ≤ c.toNat ∧ c.toNat ≤ 90 then Char.ofNat (c.toNat + 32) else c

/-- `s.lower()` on the character list of a string. -/
def pyLower (s : List Char) : List Char :=
  s.map lowerChar

/-- The whitespace characters `str.split()` splits on (the ASCII ones). -/
def isSpaceChar (c : Char) : Bool :=
  c == ' ' || c == '\t' || c == '\n' || c == '\r'

/-- Worker for `str.split()`: `cur` is the reversed current word. -/
def splitWsGo : List Char → List Char → List (List Char)
  | cur, [] => if cur.isEmpty then [] else [cur.reverse]
  | cur, c :: rest =>
    if isSpaceChar c then
      if cur.isEmpty then splitWsGo [] rest else cur.reverse :: splitWsGo [] rest
    else splitWsGo (c :: cur) rest

/-- Python `str.split()` with no argument: split on whitespace runs, no empty words. -/
def splitWs (s : List Char) : List (List Char) :=
  splitWsGo [] s

/-- Python `w in s`: substring containment. -/
def containsSub (w s : List Char) : Bool :=
  s.tails.any (fun t => w.isPrefixOf t)

/-- Scanning worker for `s.count(w)`: after a match, skip the matched
characters (non-overlapping count); the fuel argument makes the recursion
structural and is always called with at least the length of the scanned
list, which bounds the number of steps. -/
def countOccGo (w : List Char) : Nat → List Char → Nat
  | 0, _ => 0
  | _, [] => 0
  | fuel + 1, c :: rest =>
    if w.isPrefixOf (c :: rest) ∧ w ≠ [] then
      1 + countOccGo w fuel (List.drop (w.length - 1) rest)
    else
      countOccGo w fuel rest

/-- Python `s.count(w)` for nonempty `w`: non-overlapping occurrences
scanning left to right (an empty `w` never reaches a match branch here and
yields 0; the callers only pass words of length > 2). -/
def countOcc (w s : List Char) : Nat :=
  countOccGo w s.length s

/-- Python `l[:n]` for an arbitrary integer `n` (negative indices count from
the end; `Int.toNat` clamps at zero exactly as the slice does). -/
def pySlice {α : Type} (n : Int) (l : List α) : List α :=
  if 0 ≤ n then l.take n.toNat else l.take ((l.length : Int) + n).toNat

/-- Python `l[-n:]` for `n > 0`: the last `n` elements. -/
def pyTakeLast {α : Type} (n : Int) (l : List α) : List α :=
  l.drop (l.length - n.toNat)

/-! ### cache_service.py: CacheEntry, the two tiers, and CacheService

Cache values are opaque serializable payloads; they are represented by the
JSON value type `JValue` defined later in the key-derivation section.  To keep
the definition order simple the cache is parameterised by nothing: we declare
`JValue` first. -/

/-- JSON values, the payload type of `json.dumps`/`json.loads`
(cache values, `_generate_key` payloads). -/
inductive JValue where
  | null : JValue
  | bool : Bool → JValue
  | num : Int → JValue
  | str : String → JValue
  | arr : List JValue → JValue
  | obj : List (String × JValue) → JValue

/-- `CacheEntry` dataclass of cache_service.py. -/
structure CacheEntry where
  key : String
  value : JValue
  ttl : Int
  created_at : Int
  access_count : Nat
  last_accessed : Int

/-- A row of the SQLite `cache` table
(columns value, ttl, created_at, access_count, last_accessed). -/
structure DbRow where
  value : JValue
  ttl : Int
  created_at : Int
  access_count : Nat
  last_accessed : Int

/-- The mutable state of a CacheService: the in-memory dict, the SQLite
table, and the capacity bound. -/
structure CacheService where
  memory_cache : List (String × CacheEntry)
  db : List (String × DbRow)
  max_memory_entries : Nat

/-- The liveness check `current_time - entry.created_at >= entry.ttl`
(the expired side). -/
def isExpired (t : Int) (ttl created_at : Int) : Bool :=
  decide (ttl ≤ t - created_at)

/-- The `keys_to_delete` entries collected by the first loop of
`_cleanup_memory_cache`: the bindings whose liveness check fails at `t`. -/
def expiredEntries (t : Int) (mem : List (String × CacheEntry)) :
    List (String × CacheEntry) :=
  mem.filter (fun p => isExpired t p.2.ttl p.2.created_at)

/-- The bindings the first loop keeps: `k not in keys_to_delete`, i.e. the
entries that pass the liveness check at `t`, in dict order. -/
def liveEntries (t : Int) (mem : List (String × CacheEntry)) :
    List (String × CacheEntry) :=
  mem.filter (fun p => !(isExpired t p.2.ttl p.2.created_at))

/-- `sorted_entries` of `_cleanup_memory_cache`: the surviving bindings,
stably sorted by `last_accessed` ascending. -/
def lruSorted (t : Int) (mem : List (String × CacheEntry)) :
    List (String × CacheEntry) :=
  (liveEntries t mem).insertionSort (fun a b => a.2.last_accessed ≤ b.2.last_accessed)

/-- `excess_count = len(self._memory_cache) - len(keys_to_delete) - self.max_memory_entries`. -/
def excessCount (t : Int) (maxEntries : Nat) (mem : List (String × CacheEntry)) : Nat :=
  mem.length - (expiredEntries t mem).length - maxEntries

/-- The full `keys_to_delete` list of `_cleanup_memory_cache`: the expired
keys, extended — when the remainder still exceeds the capacity — by the keys
of the `excess_count` least-recently-accessed surviving entries. -/
def keysToDelete (t : Int) (maxEntries : Nat) (mem : List (String × CacheEntry)) :
    List String :=
  if mem.length - (expiredEntries t mem).length > maxEntries then
    assocKeys (expiredEntries t mem)
      ++ assocKeys ((lruSorted t mem).take (excessCount t maxEntries mem))
  else
    assocKeys (expiredEntries t mem)

namespace CacheService

/-- `_cleanup_memory_cache`: delete every key in `keys_to_delete` from the
dict. -/
def cleanup_memory_cache (t : Int) (maxEntries : Nat)
    (mem : List (String × CacheEntry)) : List (String × CacheEntry) :=
  mem.filter (fun p => !(decide (p.1 ∈ keysToDelete t maxEntries mem)))

/-- `CacheService.set`: write a fresh entry into the memory dict, run capacity
enforcement, and when `persist` is true write through to the SQLite table
(INSERT OR REPLACE lists no access_count column, so the replaced row gets the
default 0). -/
def set (s : CacheService) (key : String) (value : JValue) (ttl : Int)
    (persist : Bool) (t : Int) : CacheService :=
  let mem₁ := assocInsert key ⟨key, value, ttl, t, 0, t⟩ s.memory_cache
  let mem₂ := cleanup_memory_cache t s.max_memory_entries mem₁
  let db₁ := if persist then assocInsert key ⟨value, ttl, t, 0, t⟩ s.db else s.db
  { s with memory_cache := mem₂, db := db₁ }

/-- The memory-tier block of `CacheService.get`: on a live hit, bump
access_count and last_accessed in place and return the value; on an expired
hit, delete the entry and fall through; on a miss, fall through. -/
def getMemoryPhase (mem : List (String × CacheEntry)) (key : String) (t : Int) :
    Option JValue × List (String × CacheEntry) :=
  match assocFind key mem with
  | some e =>
    if t - e.created_at < e.ttl then
      (some e.value,
        assocInsert key { e with access_count := e.access_count + 1, last_accessed := t } mem)
    else
      (none, assocErase key mem)
  | none => (none, mem)

/-- The persistent-tier block of `CacheService.get`: on a live row, bump the
row's access columns, promote a fresh CacheEntry into the memory dict
(preserving created_at and ttl, access_count 0, last_accessed now) and return
the parsed value; on an expired row, delete the row; on a miss, return none. -/
def getDbPhase (s : CacheService) (key : String) (t : Int) :
    Option JValue × CacheService :=
  match assocFind key s.db with
  | some row =>
    if t - row.created_at < row.ttl then
      let db₁ := assocInsert key
        { row with access_count := row.access_count + 1, last_accessed := t } s.db
      let mem₁ := assocInsert key ⟨key, row.value, row.ttl, row.created_at, 0, t⟩ s.memory_cache
      (some row.value, { s with db := db₁, memory_cache := mem₁ })
    else
      (none, { s with db := assocErase key s.db })
  | none => (none, s)

/-- `CacheService.get`: memory tier first, then the persistent tier. -/
def get (s : CacheService) (key : String) (t : Int) : Option JValue × CacheService :=
  match getMemoryPhase s.memory_cache key t with
  | (some v, mem₁) => (some v, { s with memory_cache := mem₁ })
  | (none, mem₁) => getDbPhase { s with memory_cache := mem₁ } key t

/-- The entry counts reported by `get_stats` (`memory_cache.entries` and
`persistent_cache.entries`; the byte-size and access aggregates are not
needed by any claim). -/
structure Stats where
  memory_entries : Nat
  memory_max_entries : Nat
  persistent_entries : Nat

/-- `CacheService.get_stats`: the memory count is `len(self._memory_cache)`,
the persistent count is `SELECT COUNT(*) FROM cache`. -/
def get_stats (s : CacheService) : Stats :=
  ⟨s.memory_cache.length, s.max_memory_entries, s.db.length⟩

/-- Well-formedness carried by every reachable CacheService state: the dict
and the table each bind a key at most once. -/
def Wf (s : CacheService) : Prop :=
  (assocKeys s.memory_cache).Nodup ∧ (assocKeys s.db).Nodup

end CacheService

/-! ### chat_history_manager.py: the slice MemoryManager consumes -/

/-- A chat message record (the `role`/`content` fields that
memory_manager.py reads; the other fields of the stored dicts are unused
by the retrieval path). -/
structure Msg where
  role : String
  content : String

/-- ChatHistoryManager state: the current session's messages in order, and
the per-file message lists of the on-disk history files in the
most-recent-first order `get_history_files` yields (`load_history_file` on
the i-th path returns the i-th list). -/
structure ChatHistoryManager where
  current_session : List Msg
  history_files : List (List Msg)

namespace ChatHistoryManager

/-- `get_session_messages`: `self.current_session[-limit:] if limit > 0 else
self.current_session`. -/
def get_session_messages (chm : ChatHistoryManager) (limit : Int) : List Msg :=
  if 0 < limit then pyTakeLast limit chm.current_session else chm.current_session

/-- `get_history_files` composed with `load_history_file`: the loop appends a
path and breaks as soon as `len(files) >= limit`, so it yields the first
`max 1 limit` files (one file even for `limit <= 0`, none if there are no
files). -/
def get_history_files (chm : ChatHistoryManager) (limit : Int) : List (List Msg) :=
  chm.history_files.take (max 1 limit).toNat

end ChatHistoryManager

/-! ### memory_manager.py: MemoryManager -/

/-- One value of `MemoryManager.memory_cache`:
`{'memories': [...], 'timestamp': ...}`. -/
structure CachedMemories where
  memories : List String
  timestamp : Int

/-- MemoryManager state: its private result-cache dict
(`self.memory_cache`). -/
structure MemoryManager where
  memory_cache : List (String × CachedMemories)

namespace MemoryManager

/-- `self.cache_expiry = 3600`. -/
def cache_expiry : Int := 3600

/-- The per-message filter of the extraction loops:
`any(word in content for word in query_lower.split() if len(word) > 2)`
over the lowercased content. -/
def msgMatches (queryLower : List Char) (m : Msg) : Bool :=
  (splitWs queryLower).any (fun w => decide (2 < w.length) && containsSub w (pyLower m.content.data))

/-- `f"[{msg.get('role', 'unknown')}] {msg.get('content', '')}"`. -/
def formatMsg (m : Msg) : String :=
  "[" ++ m.role ++ "] " ++ m.content

/-- `_extract_current_session_memories`: filter the last 50 session messages
by the query-word test, format them, and slice to `limit`. -/
def extract_current_session_memories (chm : ChatHistoryManager)
    (query : String) (limit : Int) : List String :=
  let messages := chm.get_session_messages 50
  let ql := pyLower query.data
  pySlice limit ((messages.filter (msgMatches ql)).map formatMsg)

/-- Inner loop of `_extract_historical_memories` over one history file:
append each matching message and break as soon as `len(memories) >= limit`. -/
def collectFileGo (ql : List Char) (limit : Int) : List Msg → List String → List String
  | [], acc => acc
  | m :: rest, acc =>
    if msgMatches ql m then
      let acc₁ := acc ++ [formatMsg m]
      if limit ≤ (acc₁.length : Int) then acc₁ else collectFileGo ql limit rest acc₁
    else collectFileGo ql limit rest acc

/-- Outer loop of `_extract_historical_memories` over the history files, with
the same `len(memories) >= limit` break after each file. -/
def collectFilesGo (ql : List Char) (limit : Int) : List (List Msg) → List String → List String
  | [], acc => acc
  | f :: fs, acc =>
    let acc₁ := collectFileGo ql limit f acc
    if limit ≤ (acc₁.length : Int) then acc₁ else collectFilesGo ql limit fs acc₁

/-- `_extract_historical_memories`: scan at most 10 history files and slice
the collected matches to `limit`. -/
def extract_historical_memories (chm : ChatHistoryManager)
    (query : String) (limit : Int) : List String :=
  pySlice limit (collectFilesGo (pyLower query.data) limit (chm.get_history_files 10) [])

/-- The per-fragment relevance score of `_rank_memories_by_relevance`:
`sum over distinct query words w with len(w) > 2 of count(w) * len(w)` on the
lowercased fragment.  `set(query.lower().split())` is modelled by `dedup`
(iteration order of the Python set does not matter: the sum is commutative). -/
def relevanceScore (query memory : String) : Nat :=
  let memoryLower := pyLower memory.data
  ((splitWs (pyLower query.data)).dedup).foldl
    (fun acc w => acc + (if 2 < w.length then countOcc w memoryLower * w.length else 0)) 0

/-- `_rank_memories_by_relevance`: score every fragment, sort the
(fragment, score) pairs by score descending (stable, like
`list.sort(key=..., reverse=True)`), and keep the fragments with a
strictly positive score. -/
def rank_memories_by_relevance (memories : List String) (query : String) : List String :=
  let scored := memories.map (fun m => (m, relevanceScore query m))
  let sortedScored := scored.insertionSort (fun a b => b.2 ≤ a.2)
  (sortedScored.filter (fun p => decide (0 < p.2))).map Prod.fst

/-- The result-cache key `f"memories_{hash(query)}_{limit}"`.  Python's
builtin string hash is process-seeded and otherwise opaque; it enters the
model as the function parameter `pyHash`. -/
def cacheKey (pyHash : String → Int) (query : String) (limit : Int) : String :=
  "memories_" ++ toString (pyHash query) ++ "_" ++ toString limit

/-- The result-cache probe at the top of `get_relevant_memories`: the cached
list when the key is present and still fresh
(`now - timestamp < cache_expiry`), otherwise nothing. -/
def cachedLookup (mm : MemoryManager) (key : String) (now : Int) :
    Option (List String) :=
  match assocFind key mm.memory_cache with
  | some cd => if now - cd.timestamp < cache_expiry then some cd.memories else none
  | none => none

/-- The straight-line miss path of `get_relevant_memories`: gather the two
capped candidate sources, rank, and truncate to `limit`. -/
def freshMemories (chm : ChatHistoryManager) (query : String) (limit : Int) :
    List String :=
  pySlice limit (rank_memories_by_relevance
    (extract_current_session_memories chm query (limit.fdiv 2)
      ++ extract_historical_memories chm query (limit.fdiv 2)) query)

/-- `get_relevant_memories`.  Returns the ranked list, the successor state,
and the number of ChatHistoryManager calls the invocation performed
(`get_session_messages` + `get_history_files` + one `load_history_file` per
scanned file) — the call-count instrumentation the spec's idempotence
property asks for.  `MemoryManager.__init__` receives only the
ChatHistoryManager, so `chm` is read-only here and no CacheService is in
reach. -/
def get_relevant_memories (mm : MemoryManager) (chm : ChatHistoryManager)
    (pyHash : String → Int) (query : String) (limit : Int) (now : Int) :
    List String × MemoryManager × Nat :=
  match cachedLookup mm (cacheKey pyHash query limit) now with
  | some ms => (ms, mm, 0)
  | none =>
    (freshMemories chm query limit,
      ⟨assocInsert (cacheKey pyHash query limit)
        ⟨freshMemories chm query limit, now⟩ mm.memory_cache⟩,
      2 + (chm.get_history_files 10).length)

end MemoryManager

/-- A host process holding both collaborators.  MemoryManager holds no
reference to the CacheService (its constructor takes only the
ChatHistoryManager), so the retrieval call below leaves the CacheService
untouched — this is the faithful system-level picture of
`get_relevant_memories`. -/
structure System where
  memoryManager : MemoryManager
  cacheService : CacheService

/-- `get_relevant_memories` seen at the level of the whole process. -/
def System.get_relevant_memories (sys : System) (chm : ChatHistoryManager)
    (pyHash : String → Int) (query : String) (limit : Int) (now : Int) :
    List String × System × Nat :=
  let (r, mm₁, calls) := sys.memoryManager.get_relevant_memories chm pyHash query limit now
  (r, { sys with memoryManager := mm₁ }, calls)

/-! ### _generate_key: canonical JSON serialization and digesting

`_generate_key(prefix, data)` is
`f"{prefix}:{hashlib.md5(json.dumps(data, sort_keys=True, ensure_ascii=False).encode()).hexdigest()}"`.
`json.dumps(..., sort_keys=True)` serializes with the keys of every object
sorted by code point, i.e. it is plain serialization after recursively
sorting all object key lists; `canon` below performs that recursive sort and
`serialize` the plain serialization.  The MD5 compression itself is an
external library primitive; it enters the model as an opaque byte-level
function parameter `md5`, while the hex encoding of `hexdigest()` is
modelled explicitly. -/

/-- Code-point lexicographic comparison of strings, as CPython compares
`str` values when sorting keys. -/
def lexLe : List Char → List Char → Bool
  | [], _ => true
  | _ :: _, [] => false
  | a :: as, b :: bs =>
    if a.toNat < b.toNat then true
    else if b.toNat < a.toNat then false
    else lexLe as bs

/-- JSON string escaping as `json.dumps(..., ensure_ascii=False)` performs it
for the characters the specified payloads contain (quote, backslash and the
common control characters; other characters pass through unescaped). -/
def escapeChar (c : Char) : List Char :=
  if c = '"' then ['\\', '"']
  else if c = '\\' then ['\\', '\\']
  else if c = '\n' then ['\\', 'n']
  else if c = '\t' then ['\\', 't']
  else if c = '\r' then ['\\', 'r']
  else [c]

/-- A serialized JSON string literal. -/
def serializeStr (s : String) : List Char :=
  '"' :: (s.data.map escapeChar).flatten ++ ['"']

mutual

/-- Plain JSON serialization with `json.dumps` default separators
`", "` and `": "`. -/
def serialize : JValue → List Char
  | .null => "null".data
  | .bool b => if b then "true".data else "false".data
  | .num n => (toString n).data
  | .str s => serializeStr s
  | .arr xs => '[' :: serializeArr xs ++ [']']
  | .obj kvs => '\x7b' :: serializeObj kvs ++ ['\x7d']

/-- Array items joined by `", "`. -/
def serializeArr : List JValue → List Char
  | [] => []
  | [x] => serialize x
  | x :: y :: rest => serialize x ++ ',' :: ' ' :: serializeArr (y :: rest)

/-- Object items `"key": value` joined by `", "`. -/
def serializeObj : List (String × JValue) → List Char
  | [] => []
  | [(k, v)] => serializeStr k ++ ':' :: ' ' :: serialize v
  | (k, v) :: p :: rest =>
    serializeStr k ++ ':' :: ' ' :: serialize v ++ ',' :: ' ' :: serializeObj (p :: rest)

end

mutual

/-- Recursively sort every object's key list by code point: the payload
shape `json.dumps(..., sort_keys=True)` actually serializes. -/
def canon : JValue → JValue
  | .null => .null
  | .bool b => .bool b
  | .num n => .num n
  | .str s => .str s
  | .arr xs => .arr (canonList xs)
  | .obj kvs =>
    .obj ((canonPairs kvs).insertionSort (fun a b => lexLe a.1.data b.1.data = true))

/-- `canon` mapped over array elements. -/
def canonList : List JValue → List JValue
  | [] => []
  | x :: xs => canon x :: canonList xs

/-- `canon` mapped over object values. -/
def canonPairs : List (String × JValue) → List (String × JValue)
  | [] => []
  | (k, v) :: rest => (k, canon v) :: canonPairs rest

end

/-- `json.dumps(data, sort_keys=True, ensure_ascii=False)`. -/
def dumps (data : JValue) : List Char :=
  serialize (canon data)

/-- `str.encode()`: UTF-8 bytes of a character sequence. -/
def utf8EncodeChar (c : Char) : List Nat :=
  let n := c.toNat
  if n < 128 then [n]
  else if n < 2048 then [192 + n / 64, 128 + n % 64]
  else if n < 65536 then [224 + n / 4096, 128 + n / 64 % 64, 128 + n % 64]
  else [240 + n / 262144, 128 + n / 4096 % 64, 128 + n / 64 % 64, 128 + n % 64]

/-- UTF-8 encoding of a character list. -/
def utf8Encode (s : List Char) : List Nat :=
  (s.map utf8EncodeChar).flatten

/-- Lower-case hexadecimal digit. -/
def hexDigit (n : Nat) : Char :=
  if n < 10 then Char.ofNat (48 + n) else Char.ofNat (87 + n)

/-- Is a character a lower-case hexadecimal digit? -/
def isHexDigitChar (c : Char) : Bool :=
  (48 ≤ c.toNat && c.toNat ≤ 57) || (97 ≤ c.toNat && c.toNat ≤ 102)

/-- `bytes.hex()` / `hashlib`'s `hexdigest()`: two hex digits per byte. -/
def hexOfBytes (bs : List Nat) : String :=
  String.mk ((bs.map (fun b => [hexDigit (b / 16 % 16), hexDigit (b % 16)])).flatten)

/-- `CacheService._generate_key`, parameterised by the raw MD5 digest
function (16 output bytes in hashlib; the model does not depend on the
width). -/
def CacheService.generate_key (md5 : List Nat → List Nat) (ns : String)
    (data : JValue) : String :=
  ns ++ ":" ++ hexOfBytes (md5 (utf8Encode (dumps data)))

mutual

/-- Structural equality of payloads with dictionary key order irrelevant:
equal scalars, pointwise-equivalent arrays, and objects whose binding lists
agree up to a permutation (with equivalent values bound to equal keys). -/
inductive JEquiv : JValue → JValue → Prop
  | null : JEquiv .null .null
  | bool (b) : JEquiv (.bool b) (.bool b)
  | num (n) : JEquiv (.num n) (.num n)
  | str (s) : JEquiv (.str s) (.str s)
  | arr {xs ys} : JEquivList xs ys → JEquiv (.arr xs) (.arr ys)
  | obj {kvs mid kvs₁} : JEquivPairs kvs mid → mid.Perm kvs₁ →
      JEquiv (.obj kvs) (.obj kvs₁)

/-- Pointwise `JEquiv` on arrays. -/
inductive JEquivList : List JValue → List JValue → Prop
  | nil : JEquivList [] []
  | cons {x y xs ys} : JEquiv x y → JEquivList xs ys → JEquivList (x :: xs) (y :: ys)

/-- Pointwise `JEquiv` on object bindings with equal keys. -/
inductive JEquivPairs : List (String × JValue) → List (String × JValue) → Prop
  | nil : JEquivPairs [] []
  | cons {k v w ps qs} : JEquiv v w → JEquivPairs ps qs →
      JEquivPairs ((k, v) :: ps) ((k, w) :: qs)

end

mutual

/-- Well-formed payload: every object binds each key once (what a Python
dict guarantees by construction). -/
def wfKeys : JValue → Bool
  | .null => true
  | .bool _ => true
  | .num _ => true
  | .str _ => true
  | .arr xs => wfKeysList xs
  | .obj kvs => decide ((assocKeys kvs).Nodup) && wfKeysPairs kvs

/-- `wfKeys` over array elements. -/
def wfKeysList : List JValue → Bool
  | [] => true
  | x :: xs => wfKeys x && wfKeysList xs

/-- `wfKeys` over object values. -/
def wfKeysPairs : List (String × JValue) → Bool
  | [] => true
  | (_, v) :: rest => wfKeys v && wfKeysPairs rest

end

/-! ### Properties of the capacity-enforcement sweep -/

/-- Two bindings of a nodup-keyed association list with the same key are the
same binding. -/
theorem assoc_eq_of_key_eq {β : Type} {l : List (String × β)}
    (hnd : (assocKeys l).Nodup) {p q : String × β}
    (hp : p ∈ l) (hq : q ∈ l) (hk : p.1 = q.1) : p = q := by
  induction l with
  | nil => simp at hp
  | cons a rest ih =>
    rw [assocKeys_cons, List.nodup_cons] at hnd
    rcases List.mem_cons.mp hp with hp₁ | hp₁ <;> rcases List.mem_cons.mp hq with hq₁ | hq₁
    · rw [hp₁, hq₁]
    · exfalso
      apply hnd.1
      rw [← hp₁, hk]
      exact mem_assocKeys.mpr ⟨q.2, by simpa using hq₁⟩
    · exfalso
      apply hnd.1
      rw [← hq₁, ← hk]
      exact mem_assocKeys.mpr ⟨p.2, by simpa using hp₁⟩
    · exact ih hnd.2 hp₁ hq₁

/-- On a nodup-keyed list, a binding's key survives into a filtered sublist
exactly when the binding itself passes the filter. -/
theorem mem_assocKeys_filter_iff {β : Type} {mem : List (String × β)}
    (hnd : (assocKeys mem).Nodup) (q : String × β → Bool) {p : String × β}
    (hp : p ∈ mem) : p.1 ∈ assocKeys (mem.filter q) ↔ q p = true := by
  constructor
  · intro h
    obtain ⟨v, hv⟩ := mem_assocKeys.mp h
    have hv₁ := List.mem_filter.mp hv
    have heq : p = (p.1, v) := assoc_eq_of_key_eq hnd hp hv₁.1 rfl
    rw [heq]
    exact hv₁.2
  · intro h
    exact mem_assocKeys.mpr ⟨p.2, List.mem_filter.mpr ⟨by simpa using hp, by simpa using h⟩⟩

/-- Filtering preserves nodup keys. -/
theorem nodup_assocKeys_filter {β : Type} (q : String × β → Bool)
    {l : List (String × β)} (hnd : (assocKeys l).Nodup) :
    (assocKeys (l.filter q)).Nodup :=
  List.Nodup.sublist (List.Sublist.map Prod.fst (List.filter_sublist l)) hnd

/-- Behaviour of `_cleanup_memory_cache` on a nodup-keyed dict: the result
keeps only live entries, keeps all of them when they fit, has exactly
`min live maxE` entries, and any live entry it drops is least-recently-used
relative to everything it keeps. -/
theorem cleanup_memory_cache_spec (t : Int) (maxE : Nat)
    (mem : List (String × CacheEntry)) (hnd : (assocKeys mem).Nodup) :
    (CacheService.cleanup_memory_cache t maxE mem).length = min (liveEntries t mem).length maxE
    ∧ (∀ p ∈ CacheService.cleanup_memory_cache t maxE mem, p ∈ liveEntries t mem)
    ∧ ((liveEntries t mem).length ≤ maxE →
        CacheService.cleanup_memory_cache t maxE mem = liveEntries t mem)
    ∧ (∀ p ∈ liveEntries t mem, p ∉ CacheService.cleanup_memory_cache t maxE mem →
        ∀ q ∈ CacheService.cleanup_memory_cache t maxE mem,
          p.2.last_accessed ≤ q.2.last_accessed) := by
  classical
  have hpart : (liveEntries t mem).length + (expiredEntries t mem).length = mem.length := by
    have hp := (List.filter_append_perm
      (fun p => isExpired t p.2.ttl p.2.created_at) mem).length_eq
    rw [List.length_append] at hp
    unfold liveEntries expiredEntries
    omega
  by_cases hcase : mem.length - (expiredEntries t mem).length > maxE
  · -- LRU eviction branch
    have hlivegt : (liveEntries t mem).length > maxE := by omega
    have hexc : excessCount t maxE mem = mem.length - (expiredEntries t mem).length - maxE := rfl
    have hktd : keysToDelete t maxE mem
        = assocKeys (expiredEntries t mem)
          ++ assocKeys ((lruSorted t mem).take (excessCount t maxE mem)) := by
      unfold keysToDelete
      rw [if_pos hcase]
    set r := fun a b : String × CacheEntry => a.2.last_accessed ≤ b.2.last_accessed with hr
    haveI : IsTotal (String × CacheEntry) r := ⟨fun a b => Int.le_total _ _⟩
    haveI : IsTrans (String × CacheEntry) r := ⟨fun a b c hab hbc => le_trans hab hbc⟩
    have hperm : (lruSorted t mem).Perm (liveEntries t mem) :=
      List.perm_insertionSort r (liveEntries t mem)
    have hndlive : (assocKeys (liveEntries t mem)).Nodup :=
      nodup_assocKeys_filter _ hnd
    have hnds : (assocKeys (lruSorted t mem)).Nodup :=
      ((hperm.map Prod.fst).nodup_iff).mpr hndlive
    have hsorted : List.Pairwise r (lruSorted t mem) :=
      List.sorted_insertionSort r (liveEntries t mem)
    have htd : (lruSorted t mem).take (excessCount t maxE mem)
        ++ (lruSorted t mem).drop (excessCount t maxE mem) = lruSorted t mem :=
      List.take_append_drop _ _
    have hkeys : assocKeys ((lruSorted t mem).take (excessCount t maxE mem))
        ++ assocKeys ((lruSorted t mem).drop (excessCount t maxE mem))
        = assocKeys (lruSorted t mem) := by
      unfold assocKeys
      rw [← List.map_append, htd]
    have hdisj : (assocKeys ((lruSorted t mem).take (excessCount t maxE mem))).Disjoint
        (assocKeys ((lruSorted t mem).drop (excessCount t maxE mem))) :=
      List.disjoint_of_nodup_append (hkeys ▸ hnds)
    have hdropkeys : ∀ p ∈ (lruSorted t mem).drop (excessCount t maxE mem),
        p.1 ∉ assocKeys ((lruSorted t mem).take (excessCount t maxE mem)) := by
      intro p hp hmem
      exact hdisj hmem (mem_assocKeys.mpr ⟨p.2, by simpa using hp⟩)
    have htakekeys : ∀ p ∈ (lruSorted t mem).take (excessCount t maxE mem),
        p.1 ∈ assocKeys ((lruSorted t mem).take (excessCount t maxE mem)) := by
      intro p hp
      exact mem_assocKeys.mpr ⟨p.2, by simpa using hp⟩
    -- the sweep result as a filter over the live entries
    have hout : CacheService.cleanup_memory_cache t maxE mem
        = (liveEntries t mem).filter (fun p =>
            !(decide (p.1 ∈ assocKeys ((lruSorted t mem).take (excessCount t maxE mem))))) := by
      unfold CacheService.cleanup_memory_cache
      rw [hktd]
      unfold liveEntries
      rw [List.filter_filter]
      apply List.filter_congr
      intro p hp
      have hiff := mem_assocKeys_filter_iff hnd
        (fun p => isExpired t p.2.ttl p.2.created_at) hp
      unfold expiredEntries
      by_cases hq : isExpired t p.2.ttl p.2.created_at
      · have hm : p.1 ∈ assocKeys (mem.filter (fun p => isExpired t p.2.ttl p.2.created_at)) :=
          hiff.mpr hq
        simp [hq, hm]
      · have hm : p.1 ∉ assocKeys (mem.filter (fun p => isExpired t p.2.ttl p.2.created_at)) :=
          fun hmem => hq (hiff.mp hmem)
        by_cases he : p.1 ∈ assocKeys ((lruSorted t mem).take (excessCount t maxE mem))
        · simp [hq, hm, he]
        · simp [hq, hm, he]
    -- the kept entries are, up to permutation, the tail of the sorted order
    have hkept : ((liveEntries t mem).filter (fun p =>
          !(decide (p.1 ∈ assocKeys ((lruSorted t mem).take (excessCount t maxE mem)))))).Perm
        ((lruSorted t mem).drop (excessCount t maxE mem)) := by
      refine ((hperm.symm.filter _).trans ?_)
      have htake0 : ((lruSorted t mem).take (excessCount t maxE mem)).filter (fun p =>
          !(decide (p.1 ∈ assocKeys ((lruSorted t mem).take (excessCount t maxE mem))))) = [] := by
        rw [List.filter_eq_nil_iff]
        intro p hp
        simp [htakekeys p hp]
      have hdropself : ((lruSorted t mem).drop (excessCount t maxE mem)).filter (fun p =>
          !(decide (p.1 ∈ assocKeys ((lruSorted t mem).take (excessCount t maxE mem)))))
          = (lruSorted t mem).drop (excessCount t maxE mem) := by
        rw [List.filter_eq_self]
        intro p hp
        simp [hdropkeys p hp]
      have heq := congrArg (List.filter (fun p =>
        !(decide (p.1 ∈ assocKeys ((lruSorted t mem).take (excessCount t maxE mem)))))) htd
      rw [List.filter_append, htake0, hdropself, List.nil_append] at heq
      rw [← heq]
    have hlen : (CacheService.cleanup_memory_cache t maxE mem).length
        = min (liveEntries t mem).length maxE := by
      rw [hout, hkept.length_eq, List.length_drop, hperm.length_eq]
      omega
    refine ⟨hlen, ?_, ?_, ?_⟩
    · intro p hp
      rw [hout] at hp
      exact (List.mem_filter.mp hp).1
    · intro hle
      omega
    · intro p hplive hpout q hqout
      rw [hout] at hpout hqout
      have hpsorted : p ∈ lruSorted t mem := hperm.mem_iff.mpr hplive
      have hpsplit : p ∈ (lruSorted t mem).take (excessCount t maxE mem)
          ∨ p ∈ (lruSorted t mem).drop (excessCount t maxE mem) := by
        rw [← List.mem_append, htd]
        exact hpsorted
      have hptake : p ∈ (lruSorted t mem).take (excessCount t maxE mem) := by
        rcases hpsplit with h | h
        · exact h
        · exfalso
          apply hpout
          rw [List.mem_filter]
          exact ⟨hplive, by simp [hdropkeys p h]⟩
      have hqdrop : q ∈ (lruSorted t mem).drop (excessCount t maxE mem) :=
        hkept.mem_iff.mp hqout
      exact (List.pairwise_append.mp (htd ▸ hsorted)).2.2 p hptake q hqdrop
  · -- no eviction needed: only the expired entries are dropped
    have hktd : keysToDelete t maxE mem = assocKeys (expiredEntries t mem) := by
      unfold keysToDelete
      rw [if_neg hcase]
    have hout : CacheService.cleanup_memory_cache t maxE mem = liveEntries t mem := by
      unfold CacheService.cleanup_memory_cache
      rw [hktd]
      unfold liveEntries expiredEntries
      apply List.filter_congr
      intro p hp
      have hiff := mem_assocKeys_filter_iff hnd
        (fun p => isExpired t p.2.ttl p.2.created_at) hp
      by_cases hq : isExpired t p.2.ttl p.2.created_at
      · have hm : p.1 ∈ assocKeys (mem.filter (fun p => isExpired t p.2.ttl p.2.created_at)) :=
          hiff.mpr hq
        simp [hq, hm]
      · have hm : p.1 ∉ assocKeys (mem.filter (fun p => isExpired t p.2.ttl p.2.created_at)) :=
          fun hmem => hq (hiff.mp hmem)
        simp [hq, hm]
    have hle : (liveEntries t mem).length ≤ maxE := by omega
    refine ⟨?_, ?_, fun _ => hout, ?_⟩
    · rw [hout]
      omega
    · intro p hp
      rw [hout] at hp
      exact hp
    · intro p hplive hpout q hqout
      exfalso
      rw [hout] at hpout
      exact hpout hplive

/-! ### Unfolding lemmas for the two phases of `CacheService.get` -/

theorem getMemoryPhase_of_find {mem : List (String × CacheEntry)} {key : String} {t : Int}
    {e : CacheEntry} (hfind : assocFind key mem = some e) :
    CacheService.getMemoryPhase mem key t
      = if t - e.created_at < e.ttl then
          (some e.value,
            assocInsert key { e with access_count := e.access_count + 1, last_accessed := t } mem)
        else (none, assocErase key mem) := by
  unfold CacheService.getMemoryPhase
  rw [hfind]

theorem getMemoryPhase_of_find_none {mem : List (String × CacheEntry)} {key : String} {t : Int}
    (hfind : assocFind key mem = none) :
    CacheService.getMemoryPhase mem key t = (none, mem) := by
  unfold CacheService.getMemoryPhase
  rw [hfind]

theorem getDbPhase_of_find {s : CacheService} {key : String} {t : Int} {row : DbRow}
    (hfind : assocFind key s.db = some row) :
    CacheService.getDbPhase s key t
      = if t - row.created_at < row.ttl then
          (some row.value,
            { s with
              db := assocInsert key
                { row with access_count := row.access_count + 1, last_accessed := t } s.db,
              memory_cache :=
                assocInsert key ⟨key, row.value, row.ttl, row.created_at, 0, t⟩ s.memory_cache })
        else (none, { s with db := assocErase key s.db }) := by
  unfold CacheService.getDbPhase
  rw [hfind]

theorem getDbPhase_of_find_none {s : CacheService} {key : String} {t : Int}
    (hfind : assocFind key s.db = none) :
    CacheService.getDbPhase s key t = (none, s) := by
  unfold CacheService.getDbPhase
  rw [hfind]

theorem get_of_memoryPhase_some {s : CacheService} {key : String} {t : Int} {v : JValue}
    {mem₁ : List (String × CacheEntry)}
    (h : CacheService.getMemoryPhase s.memory_cache key t = (some v, mem₁)) :
    CacheService.get s key t = (some v, { s with memory_cache := mem₁ }) := by
  unfold CacheService.get
  rw [h]

theorem get_of_memoryPhase_none {s : CacheService} {key : String} {t : Int}
    {mem₁ : List (String × CacheEntry)}
    (h : CacheService.getMemoryPhase s.memory_cache key t = (none, mem₁)) :
    CacheService.get s key t = CacheService.getDbPhase { s with memory_cache := mem₁ } key t := by
  unfold CacheService.get
  rw [h]

theorem set_memory_cache_eq (s : CacheService) (key : String) (v : JValue) (ttl : Int)
    (persist : Bool) (t : Int) :
    (s.set key v ttl persist t).memory_cache
      = CacheService.cleanup_memory_cache t s.max_memory_entries
          (assocInsert key ⟨key, v, ttl, t, 0, t⟩ s.memory_cache) := rfl

theorem set_db_eq (s : CacheService) (key : String) (v : JValue) (ttl : Int)
    (persist : Bool) (t : Int) :
    (s.set key v ttl persist t).db
      = if persist then assocInsert key ⟨v, ttl, t, 0, t⟩ s.db else s.db := rfl

/-! ### Claim theorems for the CacheService -/

/-- Claim C1: after every CacheService.set call (which runs capacity
enforcement), the memory tier holds at most max_memory_entries entries, and
enforcement first removes exactly the expired entries (the kept entries are
exactly the live ones whenever they fit) and then, if the remaining count
still exceeds the bound, removes exactly the excess non-expired entries with
the smallest last_accessed values (kept count = min live capacity; every
removed live entry is ≤ every kept entry in last_accessed order). -/
theorem C1_capacity_invariant (s : CacheService) (key : String) (v : JValue) (ttl : Int)
    (persist : Bool) (t : Int) (hwf : s.Wf) :
    ((s.set key v ttl persist t).memory_cache).length ≤ s.max_memory_entries
    ∧ ((s.set key v ttl persist t).memory_cache).length
        = min (liveEntries t (assocInsert key ⟨key, v, ttl, t, 0, t⟩ s.memory_cache)).length
            s.max_memory_entries
    ∧ (∀ p ∈ (s.set key v ttl persist t).memory_cache,
        p ∈ liveEntries t (assocInsert key ⟨key, v, ttl, t, 0, t⟩ s.memory_cache))
    ∧ ((liveEntries t (assocInsert key ⟨key, v, ttl, t, 0, t⟩ s.memory_cache)).length
          ≤ s.max_memory_entries →
        (s.set key v ttl persist t).memory_cache
          = liveEntries t (assocInsert key ⟨key, v, ttl, t, 0, t⟩ s.memory_cache))
    ∧ (∀ p ∈ liveEntries t (assocInsert key ⟨key, v, ttl, t, 0, t⟩ s.memory_cache),
        p ∉ (s.set key v ttl persist t).memory_cache →
        ∀ q ∈ (s.set key v ttl persist t).memory_cache,
          p.2.last_accessed ≤ q.2.last_accessed) := by
  have hnd : (assocKeys (assocInsert key ⟨key, v, ttl, t, 0, t⟩ s.memory_cache)).Nodup :=
    nodup_assocKeys_assocInsert _ _ _ hwf.1
  have hspec := cleanup_memory_cache_spec t s.max_memory_entries
    (assocInsert key ⟨key, v, ttl, t, 0, t⟩ s.memory_cache) hnd
  rw [set_memory_cache_eq]
  exact ⟨le_trans (le_of_eq hspec.1) (min_le_right _ _),
    hspec.1, hspec.2.1, hspec.2.2.1, hspec.2.2.2⟩

theorem C1_capacity_invariant_witness :
    ((CacheService.set ⟨[], [], 2⟩ "k" (.str "v") 10 false 0).memory_cache).length ≤ 2 :=
  (C1_capacity_invariant ⟨[], [], 2⟩ "k" (.str "v") 10 false 0 (by constructor <;> decide)).1

/-- Claim C3: with a strictly advancing clock (every stored entry was last
touched before `t`), a positive TTL, and a memory tier of capacity at least
one, `set(key, v, ttl)` immediately followed by `get(key)` at the same
instant returns `v`. -/
theorem C3_read_after_write (s : CacheService) (key : String) (v : JValue) (ttl : Int)
    (persist : Bool) (t : Int) (hwf : s.Wf) (hmax : 1 ≤ s.max_memory_entries)
    (httl : 0 < ttl) (hclock : ∀ p ∈ s.memory_cache, p.2.last_accessed < t) :
    ((s.set key v ttl persist t).get key t).1 = some v := by
  have hnd1 : (assocKeys (assocInsert key ⟨key, v, ttl, t, 0, t⟩ s.memory_cache)).Nodup :=
    nodup_assocKeys_assocInsert _ _ _ hwf.1
  have hspec := cleanup_memory_cache_spec t s.max_memory_entries
    (assocInsert key ⟨key, v, ttl, t, 0, t⟩ s.memory_cache) hnd1
  have hElive : (key, (⟨key, v, ttl, t, 0, t⟩ : CacheEntry))
      ∈ liveEntries t (assocInsert key ⟨key, v, ttl, t, 0, t⟩ s.memory_cache) := by
    rw [liveEntries, List.mem_filter]
    refine ⟨mem_assocInsert_self _ _ _, ?_⟩
    simp only [isExpired, Bool.not_eq_true', decide_eq_false_iff_not]
    omega
  have hkeep : (key, (⟨key, v, ttl, t, 0, t⟩ : CacheEntry))
      ∈ (s.set key v ttl persist t).memory_cache := by
    rw [set_memory_cache_eq]
    by_contra hout
    have hlru := hspec.2.2.2 _ hElive hout
    have hpos : 0 < (liveEntries t (assocInsert key ⟨key, v, ttl, t, 0, t⟩ s.memory_cache)).length :=
      List.length_pos.mpr (List.ne_nil_of_mem hElive)
    have hlen1 : 0 < (CacheService.cleanup_memory_cache t s.max_memory_entries
        (assocInsert key ⟨key, v, ttl, t, 0, t⟩ s.memory_cache)).length := by
      rw [hspec.1]
      omega
    obtain ⟨q, hq⟩ := List.exists_mem_of_length_pos hlen1
    have hqlive := hspec.2.1 q hq
    have hqmem : q ∈ assocInsert key ⟨key, v, ttl, t, 0, t⟩ s.memory_cache := by
      rw [liveEntries] at hqlive
      exact (List.mem_filter.mp hqlive).1
    have hlast : (t : Int) ≤ q.2.last_accessed := hlru q hq
    rcases mem_of_mem_assocInsert hwf.1 hqmem with hq1 | hq1
    · exact hout (hq1 ▸ hq)
    · have := hclock q hq1.1
      omega
  have hndout : (assocKeys ((s.set key v ttl persist t).memory_cache)).Nodup := by
    rw [set_memory_cache_eq]
    exact nodup_assocKeys_filter _ hnd1
  have hfind : assocFind key ((s.set key v ttl persist t).memory_cache)
      = some ⟨key, v, ttl, t, 0, t⟩ :=
    assocFind_of_mem hndout hkeep
  have hlive : t - (⟨key, v, ttl, t, 0, t⟩ : CacheEntry).created_at
      < (⟨key, v, ttl, t, 0, t⟩ : CacheEntry).ttl := by
    show t - t < ttl
    omega
  rw [get_of_memoryPhase_some (by rw [getMemoryPhase_of_find hfind, if_pos hlive])]

theorem C3_read_after_write_witness :
    ((CacheService.set ⟨[], [], 1000⟩ "k" (.str "v") 3600 false 7).get "k" 7).1
      = some (.str "v") :=
  C3_read_after_write ⟨[], [], 1000⟩ "k" (.str "v") 3600 false 7
    (by constructor <;> decide) (by decide) (by decide)
    (by intro p hp; simp at hp)

theorem cleanup_memory_cache_def (t : Int) (maxEntries : Nat)
    (mem : List (String × CacheEntry)) :
    CacheService.cleanup_memory_cache t maxEntries mem
      = mem.filter (fun p => !(decide (p.1 ∈ keysToDelete t maxEntries mem))) := rfl

theorem assocFind_none_of_not_mem_keys {β : Type} {k : String} {l : List (String × β)}
    (h : assocFind k l = none) : k ∉ assocKeys l := by
  induction l with
  | nil => simp [assocKeys]
  | cons p rest ih =>
    obtain ⟨k₁, v₁⟩ := p
    rw [assocKeys_cons, List.mem_cons]
    by_cases hk : k₁ = k
    · rw [assocFind, if_pos hk] at h
      exact Option.noConfusion h
    · rw [assocFind, if_neg hk] at h
      rintro (he | hmem)
      · exact hk he.symm
      · exact ih h hmem

theorem filter_ne_key_eq_self {β : Type} {key : String} {l : List (String × β)}
    (h : assocFind key l = none) :
    l.filter (fun p => !(decide (p.1 = key))) = l := by
  rw [List.filter_eq_self]
  intro p hp
  have hne : p.1 ≠ key := by
    intro he
    exact assocFind_none_of_not_mem_keys h
      (he ▸ mem_assocKeys.mpr ⟨p.2, by simpa using hp⟩)
  simp [hne]

/-- Claim C2: after `set(k, v, ttl)` at `t₀` and a clock advance of at least
`ttl` (and provided the set either persisted or no independent persistent row
for `k` exists), `get(k)` at `t₁` returns absent, and afterwards `k` is in
neither tier, so the `get_stats` entry counts equal the counts over the
entries with a key other than `k`. -/
theorem C2_expiry (s : CacheService) (key : String) (v : JValue) (ttl : Int)
    (persist : Bool) (t₀ t₁ : Int) (hwf : s.Wf)
    (h01 : t₀ + ttl ≤ t₁)
    (hdb : persist = true ∨ assocFind key s.db = none) :
    (((s.set key v ttl persist t₀).get key t₁).1 = none)
    ∧ assocFind key (((s.set key v ttl persist t₀).get key t₁).2.memory_cache) = none
    ∧ assocFind key (((s.set key v ttl persist t₀).get key t₁).2.db) = none
    ∧ (CacheService.get_stats (((s.set key v ttl persist t₀).get key t₁).2)).memory_entries
        = ((((s.set key v ttl persist t₀).get key t₁).2.memory_cache).filter
            (fun p => !(decide (p.1 = key)))).length
    ∧ (CacheService.get_stats (((s.set key v ttl persist t₀).get key t₁).2)).persistent_entries
        = ((((s.set key v ttl persist t₀).get key t₁).2.db).filter
            (fun p => !(decide (p.1 = key)))).length := by
  have hdbrun : ∀ s₂ : CacheService, s₂.db = (s.set key v ttl persist t₀).db →
      (CacheService.getDbPhase s₂ key t₁).1 = none
      ∧ (CacheService.getDbPhase s₂ key t₁).2.memory_cache = s₂.memory_cache
      ∧ assocFind key ((CacheService.getDbPhase s₂ key t₁).2.db) = none := by
    intro s₂ hdb2
    by_cases hper : persist = true
    · have hrow : assocFind key s₂.db = some ⟨v, ttl, t₀, 0, t₀⟩ := by
        rw [hdb2, set_db_eq, hper, if_pos rfl]
        exact assocFind_assocInsert_self _ _ _
      have hexpdb : ¬ (t₁ - (⟨v, ttl, t₀, 0, t₀⟩ : DbRow).created_at
          < (⟨v, ttl, t₀, 0, t₀⟩ : DbRow).ttl) := by
        show ¬ (t₁ - t₀ < ttl)
        omega
      rw [getDbPhase_of_find hrow, if_neg hexpdb]
      exact ⟨rfl, rfl, assocFind_assocErase_self _ _⟩
    · have hpf : persist = false := by
        cases persist
        · rfl
        · exact absurd rfl hper
      have hnonedb : assocFind key s₂.db = none := by
        rw [hdb2, set_db_eq, hpf]
        simp only [Bool.false_eq_true, if_false]
        rcases hdb with h | h
        · exact absurd h hper
        · exact h
      rw [getDbPhase_of_find_none hnonedb]
      exact ⟨rfl, rfl, hnonedb⟩
  rcases hc : assocFind key ((s.set key v ttl persist t₀).memory_cache) with _ | e
  · -- the entry was already evicted by enforcement: straight to the persistent tier
    have hget : (s.set key v ttl persist t₀).get key t₁
        = CacheService.getDbPhase
            ⟨(s.set key v ttl persist t₀).memory_cache,
              (s.set key v ttl persist t₀).db,
              (s.set key v ttl persist t₀).max_memory_entries⟩ key t₁ := by
      rw [get_of_memoryPhase_none (getMemoryPhase_of_find_none hc)]
    obtain ⟨hv, hm, hd⟩ := hdbrun
      ⟨(s.set key v ttl persist t₀).memory_cache,
        (s.set key v ttl persist t₀).db,
        (s.set key v ttl persist t₀).max_memory_entries⟩ rfl
    have hmemnone : assocFind key
        ((CacheService.getDbPhase
          ⟨(s.set key v ttl persist t₀).memory_cache,
            (s.set key v ttl persist t₀).db,
            (s.set key v ttl persist t₀).max_memory_entries⟩ key t₁).2.memory_cache) = none := by
      rw [hm]
      exact hc
    refine ⟨?_, ?_, ?_, ?_, ?_⟩
    · rw [hget]; exact hv
    · rw [hget]; exact hmemnone
    · rw [hget]; exact hd
    · rw [hget, CacheService.get_stats, filter_ne_key_eq_self hmemnone]
    · rw [hget, CacheService.get_stats, filter_ne_key_eq_self hd]
  · -- the entry is still in the memory dict: the expired read deletes it
    have hmm1 : (key, e) ∈ assocInsert key ⟨key, v, ttl, t₀, 0, t₀⟩ s.memory_cache := by
      have hmm : (key, e) ∈ (s.set key v ttl persist t₀).memory_cache := assocFind_mem hc
      rw [set_memory_cache_eq, cleanup_memory_cache_def] at hmm
      exact (List.mem_filter.mp hmm).1
    have heE : e = ⟨key, v, ttl, t₀, 0, t₀⟩ := by
      rcases mem_of_mem_assocInsert hwf.1 hmm1 with he | he
      · exact (Prod.ext_iff.mp he).2
      · exact absurd rfl he.2
    subst heE
    have hexp : ¬ (t₁ - (⟨key, v, ttl, t₀, 0, t₀⟩ : CacheEntry).created_at
        < (⟨key, v, ttl, t₀, 0, t₀⟩ : CacheEntry).ttl) := by
      show ¬ (t₁ - t₀ < ttl)
      omega
    have hget : (s.set key v ttl persist t₀).get key t₁
        = CacheService.getDbPhase
            ⟨assocErase key ((s.set key v ttl persist t₀).memory_cache),
              (s.set key v ttl persist t₀).db,
              (s.set key v ttl persist t₀).max_memory_entries⟩ key t₁ := by
      rw [get_of_memoryPhase_none (by rw [getMemoryPhase_of_find hc, if_neg hexp])]
    obtain ⟨hv, hm, hd⟩ := hdbrun
      ⟨assocErase key ((s.set key v ttl persist t₀).memory_cache),
        (s.set key v ttl persist t₀).db,
        (s.set key v ttl persist t₀).max_memory_entries⟩ rfl
    have hmemnone : assocFind key
        ((CacheService.getDbPhase
          ⟨assocErase key ((s.set key v ttl persist t₀).memory_cache),
            (s.set key v ttl persist t₀).db,
            (s.set key v ttl persist t₀).max_memory_entries⟩ key t₁).2.memory_cache) = none := by
      rw [hm]
      exact assocFind_assocErase_self _ _
    refine ⟨?_, ?_, ?_, ?_, ?_⟩
    · rw [hget]; exact hv
    · rw [hget]; exact hmemnone
    · rw [hget]; exact hd
    · rw [hget, CacheService.get_stats, filter_ne_key_eq_self hmemnone]
    · rw [hget, CacheService.get_stats, filter_ne_key_eq_self hd]

theorem C2_expiry_witness :
    (((CacheService.set ⟨[], [], 1000⟩ "k" (.str "v") 60 true 0).get "k" 60).1 = none)
    ∧ assocFind "k"
        (((CacheService.set ⟨[], [], 1000⟩ "k" (.str "v") 60 true 0).get "k" 60).2.memory_cache)
        = none
    ∧ assocFind "k"
        (((CacheService.set ⟨[], [], 1000⟩ "k" (.str "v") 60 true 0).get "k" 60).2.db)
        = none :=
  have h := C2_expiry ⟨[], [], 1000⟩ "k" (.str "v") 60 true 0 60
    (by constructor <;> decide) (by decide) (Or.inl rfl)
  ⟨h.1, h.2.1, h.2.2.1⟩

/-- Claim C4: when `k` is absent from the memory tier but the persistent tier
holds a live row for it, `get(k)` returns the stored value and promotes a
fresh entry for `k` into the memory tier that preserves the row's original
`created_at` and `ttl` (remaining lifetime kept, not reset). -/
theorem C4_promotion (s : CacheService) (key : String) (t : Int) (row : DbRow)
    (hmem : assocFind key s.memory_cache = none)
    (hdb : assocFind key s.db = some row)
    (hlive : t - row.created_at < row.ttl) :
    ((s.get key t).1 = some row.value)
    ∧ assocFind key ((s.get key t).2.memory_cache)
        = some ⟨key, row.value, row.ttl, row.created_at, 0, t⟩ := by
  have hget : s.get key t
      = CacheService.getDbPhase ⟨s.memory_cache, s.db, s.max_memory_entries⟩ key t := by
    rw [get_of_memoryPhase_none (getMemoryPhase_of_find_none hmem)]
  rw [hget, getDbPhase_of_find
    (show assocFind key (CacheService.mk s.memory_cache s.db s.max_memory_entries).db = some row
      from hdb), if_pos hlive]
  exact ⟨rfl, assocFind_assocInsert_self _ _ _⟩

theorem C4_promotion_witness :
    ((CacheService.get ⟨[], [("k", ⟨.str "w", 10, 0, 0, 0⟩)], 1000⟩ "k" 5).1
      = some (.str "w"))
    ∧ assocFind "k"
        ((CacheService.get ⟨[], [("k", ⟨.str "w", 10, 0, 0, 0⟩)], 1000⟩ "k" 5).2.memory_cache)
        = some ⟨"k", .str "w", 10, 0, 0, 5⟩ :=
  C4_promotion ⟨[], [("k", ⟨.str "w", 10, 0, 0, 0⟩)], 1000⟩ "k" 5 ⟨.str "w", 10, 0, 0, 0⟩
    rfl rfl (by decide)

/-- Claim C5 counterexample: `CacheService.set` performs no TTL validation.
At ttl = 0 (non-positive) with persist, the call raises no error and the
entry is silently stored in the persistent tier — refuting "rejects the call
with a caller-visible validation error, and does not silently store an entry
with that TTL". -/
theorem C5_invalid_ttl_counterexample :
    assocFind "k" ((CacheService.set ⟨[], [], 1000⟩ "k" (.str "v") 0 true 5).db)
      = some ⟨.str "v", 0, 5, 0, 5⟩ := rfl

/-- Claim C5 amended: for ttl ≤ 0, `set` accepts the call without any
validation error; the entry is written (and, when persist is true, stored in
the persistent tier with that TTL), while the memory copy is removed
immediately by the post-set enforcement sweep because it is already
expired. -/
theorem C5_invalid_ttl_amended (s : CacheService) (key : String) (v : JValue) (ttl : Int)
    (persist : Bool) (t : Int) (hwf : s.Wf) (httl : ttl ≤ 0) :
    assocFind key ((s.set key v ttl persist t).memory_cache) = none
    ∧ (persist = true →
        assocFind key ((s.set key v ttl persist t).db) = some ⟨v, ttl, t, 0, t⟩) := by
  have hnd1 : (assocKeys (assocInsert key ⟨key, v, ttl, t, 0, t⟩ s.memory_cache)).Nodup :=
    nodup_assocKeys_assocInsert _ _ _ hwf.1
  constructor
  · have hexp : (key, (⟨key, v, ttl, t, 0, t⟩ : CacheEntry))
        ∈ expiredEntries t (assocInsert key ⟨key, v, ttl, t, 0, t⟩ s.memory_cache) := by
      rw [expiredEntries, List.mem_filter]
      refine ⟨mem_assocInsert_self _ _ _, ?_⟩
      simp only [isExpired, decide_eq_true_eq]
      omega
    have hkd : key ∈ keysToDelete t s.max_memory_entries
        (assocInsert key ⟨key, v, ttl, t, 0, t⟩ s.memory_cache) := by
      have hk : key ∈ assocKeys (expiredEntries t
          (assocInsert key ⟨key, v, ttl, t, 0, t⟩ s.memory_cache)) :=
        mem_assocKeys.mpr ⟨_, hexp⟩
      unfold keysToDelete
      by_cases hcond : (assocInsert key ⟨key, v, ttl, t, 0, t⟩ s.memory_cache).length
          - (expiredEntries t (assocInsert key ⟨key, v, ttl, t, 0, t⟩ s.memory_cache)).length
          > s.max_memory_entries
      · rw [if_pos hcond]
        exact List.mem_append_left _ hk
      · rw [if_neg hcond]
        exact hk
    rw [set_memory_cache_eq, cleanup_memory_cache_def]
    have hff := assocFind_filter key
      (fun p => !(decide (p.1 ∈ keysToDelete t s.max_memory_entries
        (assocInsert key ⟨key, v, ttl, t, 0, t⟩ s.memory_cache))))
      (assocInsert key ⟨key, v, ttl, t, 0, t⟩ s.memory_cache) hnd1
    rw [assocFind_assocInsert_self] at hff
    rw [hff]
    simp [hkd]
  · intro hper
    rw [set_db_eq, hper, if_pos rfl]
    exact assocFind_assocInsert_self _ _ _

theorem C5_invalid_ttl_amended_witness :
    assocFind "k" ((CacheService.set ⟨[], [], 1000⟩ "k" (.str "v") (-3) true 5).memory_cache)
      = none :=
  (C5_invalid_ttl_amended ⟨[], [], 1000⟩ "k" (.str "v") (-3) true 5
    (by constructor <;> decide) (by decide)).1

/-- Claim C6 counterexample: the memory-tier lookup of `get` is not
mutation-free on an expired entry — it deletes the entry from the dict
(cache_service.py line 122), so the memory mapping is changed, refuting "the
Memory Tier mapping is unchanged when the looked-up entry is expired". -/
theorem C6_read_purity_counterexample :
    (CacheService.getMemoryPhase
        [("k", ⟨"k", .str "v", 5, 0, 0, 0⟩)] "k" 10).2
      ≠ [("k", ⟨"k", .str "v", 5, 0, 0, 0⟩)] := by
  intro h
  have h0 : (CacheService.getMemoryPhase
      [("k", ⟨"k", .str "v", 5, 0, 0, 0⟩)] "k" 10).2
      = ([] : List (String × CacheEntry)) := rfl
  rw [h0] at h
  exact List.cons_ne_nil _ _ h.symm

/-- Claim C6 amended: the memory-tier lookup returns an entry's value only if
`now - created_at < ttl`; on an expired looked-up entry it does mutate the
tier — it deletes the entry from the memory dict before the persistent tier
is consulted. -/
theorem C6_read_purity_amended (mem : List (String × CacheEntry)) (key : String) (t : Int)
    (e : CacheEntry) (hfind : assocFind key mem = some e) :
    (t - e.created_at < e.ttl →
      CacheService.getMemoryPhase mem key t
        = (some e.value,
            assocInsert key
              { e with access_count := e.access_count + 1, last_accessed := t } mem))
    ∧ (e.ttl ≤ t - e.created_at →
      CacheService.getMemoryPhase mem key t = (none, assocErase key mem)) := by
  constructor
  · intro h
    rw [getMemoryPhase_of_find hfind, if_pos h]
  · intro h
    rw [getMemoryPhase_of_find hfind, if_neg (by omega)]

theorem C6_read_purity_amended_witness :
    CacheService.getMemoryPhase [("j", ⟨"j", .num 7, 4, 0, 0, 0⟩)] "j" 9
      = (none, assocErase "j" [("j", ⟨"j", .num 7, 4, 0, 0, 0⟩)]) :=
  (C6_read_purity_amended [("j", ⟨"j", .num 7, 4, 0, 0, 0⟩)] "j" 9
    ⟨"j", .num 7, 4, 0, 0, 0⟩ rfl).2 (by decide)

/-! ### Properties of the relevance ranking -/

theorem countOccGo_eq_zero {w : List Char} : ∀ (fuel : Nat) (s : List Char),
    containsSub w s = false → countOccGo w fuel s = 0 := by
  intro fuel
  induction fuel with
  | zero => intro s h; cases s <;> rfl
  | succ n ih =>
    intro s h
    cases s with
    | nil => rfl
    | cons c rest =>
      have hsplit : (w.isPrefixOf (c :: rest)) = false ∧ containsSub w rest = false := by
        unfold containsSub at h ⊢
        rw [List.tails_cons, List.any_cons, Bool.or_eq_false_iff] at h
        exact h
      rw [countOccGo, if_neg (by simp [hsplit.1])]
      exact ih rest hsplit.2

theorem countOcc_eq_zero {w s : List Char} (h : containsSub w s = false) :
    countOcc w s = 0 :=
  countOccGo_eq_zero _ _ h

theorem foldl_add_eq_zero {f : List Char → Nat} : ∀ (l : List (List Char)) (acc : Nat),
    (∀ w ∈ l, f w = 0) → l.foldl (fun a w => a + f w) acc = acc := by
  intro l
  induction l with
  | nil => intro acc _; rfl
  | cons w rest ih =>
    intro acc h
    rw [List.foldl_cons, h w (List.mem_cons_self _ _), Nat.add_zero]
    exact ih acc (fun x hx => h x (List.mem_cons_of_mem _ hx))

theorem relevanceScore_eq_zero {query memory : String}
    (h : ∀ w ∈ (splitWs (pyLower query.data)).dedup, 2 < w.length →
      countOcc w (pyLower memory.data) = 0) :
    MemoryManager.relevanceScore query memory = 0 := by
  show ((splitWs (pyLower query.data)).dedup).foldl
    (fun a w => a + (if 2 < w.length then countOcc w (pyLower memory.data) * w.length else 0)) 0
    = 0
  apply foldl_add_eq_zero
  intro w hw
  by_cases hlen : 2 < w.length
  · rw [if_pos hlen, h w hw hlen, Nat.zero_mul]
  · rw [if_neg hlen]

theorem rank_def (memories : List String) (query : String) :
    MemoryManager.rank_memories_by_relevance memories query
      = (((memories.map (fun m => (m, MemoryManager.relevanceScore query m))).insertionSort
            (fun a b => b.2 ≤ a.2)).filter (fun p => decide (0 < p.2))).map Prod.fst := rfl

theorem rank_mem_facts {memories : List String} {query m : String}
    (h : m ∈ MemoryManager.rank_memories_by_relevance memories query) :
    m ∈ memories ∧ 0 < MemoryManager.relevanceScore query m := by
  rw [rank_def] at h
  obtain ⟨p, hp, hpm⟩ := List.mem_map.mp h
  have hpf := List.mem_filter.mp hp
  have hpsorted : p ∈ (memories.map
      (fun m => (m, MemoryManager.relevanceScore query m))).insertionSort
      (fun a b => b.2 ≤ a.2) := hpf.1
  have hpscored : p ∈ memories.map (fun m => (m, MemoryManager.relevanceScore query m)) :=
    (List.perm_insertionSort _ _).mem_iff.mp hpsorted
  obtain ⟨m₀, hm₀, hpm₀⟩ := List.mem_map.mp hpscored
  have hm : m₀ = m := by rw [← hpm, ← hpm₀]
  subst hm
  refine ⟨hm₀, ?_⟩
  have : (0 < p.2) := of_decide_eq_true hpf.2
  rw [← hpm₀] at this
  exact this

/-- Claim C7: a candidate containing no query word of length > 2 as a
(case-insensitive) substring is excluded; every returned fragment comes from
the candidates and carries a strictly positive relevance score (the
`Σ count·length` score of `relevanceScore`); the output is ordered by
descending score; and on the concrete fragments of the spec the ranking
returns exactly [both-words fragment, one-word fragment], excluding the
zero-match fragment. -/
theorem C7_ranking :
    (∀ (memories : List String) (query m : String), m ∈ memories →
      (∀ w ∈ (splitWs (pyLower query.data)).dedup, 2 < w.length →
        containsSub w (pyLower m.data) = false) →
      m ∉ MemoryManager.rank_memories_by_relevance memories query)
    ∧ (∀ (memories : List String) (query m : String),
        m ∈ MemoryManager.rank_memories_by_relevance memories query →
        m ∈ memories ∧ 0 < MemoryManager.relevanceScore query m)
    ∧ (∀ (memories : List String) (query : String),
        List.Pairwise (fun a b =>
          MemoryManager.relevanceScore query b ≤ MemoryManager.relevanceScore query a)
          (MemoryManager.rank_memories_by_relevance memories query))
    ∧ MemoryManager.rank_memories_by_relevance
        ["I love hiking in mountains", "I love cats", "hiking is fun"] "hiking mountains"
        = ["I love hiking in mountains", "hiking is fun"] := by
  refine ⟨?_, ?_, ?_, by decide⟩
  · intro memories query m _ hnosub hmem
    have hzero : MemoryManager.relevanceScore query m = 0 :=
      relevanceScore_eq_zero (fun w hw hlen => countOcc_eq_zero (hnosub w hw hlen))
    have := (rank_mem_facts hmem).2
    omega
  · intro memories query m hmem
    exact rank_mem_facts hmem
  · intro memories query
    set r := fun a b : String × Nat => b.2 ≤ a.2 with hr
    haveI : IsTotal (String × Nat) r := ⟨fun a b => Nat.le_total _ _⟩
    haveI : IsTrans (String × Nat) r := ⟨fun a b c hab hbc => le_trans hbc hab⟩
    have hsorted : List.Pairwise r
        ((memories.map (fun m => (m, MemoryManager.relevanceScore query m))).insertionSort r) :=
      List.sorted_insertionSort r _
    have hfilter : List.Pairwise r
        (((memories.map (fun m => (m, MemoryManager.relevanceScore query m))).insertionSort r).filter
          (fun p => decide (0 < p.2))) :=
      hsorted.sublist (List.filter_sublist _)
    rw [rank_def, List.pairwise_map]
    refine hfilter.imp_of_mem ?_
    intro p q hp hq hpq
    have hpscored : p ∈ memories.map (fun m => (m, MemoryManager.relevanceScore query m)) :=
      (List.perm_insertionSort _ _).mem_iff.mp ((List.mem_filter.mp hp).1)
    have hqscored : q ∈ memories.map (fun m => (m, MemoryManager.relevanceScore query m)) :=
      (List.perm_insertionSort _ _).mem_iff.mp ((List.mem_filter.mp hq).1)
    obtain ⟨mp, _, hmp⟩ := List.mem_map.mp hpscored
    obtain ⟨mq, _, hmq⟩ := List.mem_map.mp hqscored
    have hps : p.2 = MemoryManager.relevanceScore query p.1 := by rw [← hmp]
    have hqs : q.2 = MemoryManager.relevanceScore query q.1 := by rw [← hmq]
    rw [← hps, ← hqs]
    exact hpq

theorem C7_ranking_witness :
    "I love cats" ∉ MemoryManager.rank_memories_by_relevance
      ["I love hiking in mountains", "I love cats", "hiking is fun"] "hiking mountains" :=
  C7_ranking.1 ["I love hiking in mountains", "I love cats", "hiking is fun"]
    "hiking mountains" "I love cats" (by decide) (by decide)

/-! ### Unfolding lemmas for `get_relevant_memories` -/

theorem cachedLookup_of_find_some {mm : MemoryManager} {key : String} {now : Int}
    {cd : CachedMemories} (hfind : assocFind key mm.memory_cache = some cd) :
    MemoryManager.cachedLookup mm key now
      = if now - cd.timestamp < MemoryManager.cache_expiry then some cd.memories else none := by
  unfold MemoryManager.cachedLookup
  rw [hfind]

theorem cachedLookup_of_find_none {mm : MemoryManager} {key : String} {now : Int}
    (hfind : assocFind key mm.memory_cache = none) :
    MemoryManager.cachedLookup mm key now = none := by
  unfold MemoryManager.cachedLookup
  rw [hfind]

theorem get_relevant_memories_of_cached_some {mm : MemoryManager} {chm : ChatHistoryManager}
    {pyHash : String → Int} {query : String} {limit now : Int} {ms : List String}
    (h : MemoryManager.cachedLookup mm (MemoryManager.cacheKey pyHash query limit) now
      = some ms) :
    mm.get_relevant_memories chm pyHash query limit now = (ms, mm, 0) := by
  unfold MemoryManager.get_relevant_memories
  rw [h]

theorem get_relevant_memories_of_cached_none {mm : MemoryManager} {chm : ChatHistoryManager}
    {pyHash : String → Int} {query : String} {limit now : Int}
    (h : MemoryManager.cachedLookup mm (MemoryManager.cacheKey pyHash query limit) now
      = none) :
    mm.get_relevant_memories chm pyHash query limit now
      = (MemoryManager.freshMemories chm query limit,
          ⟨assocInsert (MemoryManager.cacheKey pyHash query limit)
            ⟨MemoryManager.freshMemories chm query limit, now⟩ mm.memory_cache⟩,
          2 + (chm.get_history_files 10).length) := by
  unfold MemoryManager.get_relevant_memories
  rw [h]

/-- Claim C8 counterexample: the retrieval result is not cached through the
Cache Coordinator.  On a concrete run the retriever produces a nonempty
ranked list while the CacheService in the same process is left with both
tiers empty — `MemoryManager` holds no reference to the CacheService at all
(its constructor takes only the ChatHistoryManager). -/
theorem C8_retriever_cache_counterexample :
    ((System.get_relevant_memories ⟨⟨[]⟩, ⟨[], [], 1000⟩⟩
        ⟨[⟨"user", "go hiking"⟩], []⟩ (fun _ => 0) "hiking" 10 0).1 ≠ [])
    ∧ ((System.get_relevant_memories ⟨⟨[]⟩, ⟨[], [], 1000⟩⟩
        ⟨[⟨"user", "go hiking"⟩], []⟩ (fun _ => 0) "hiking" 10 0).2.1.cacheService.memory_cache
        = [])
    ∧ ((System.get_relevant_memories ⟨⟨[]⟩, ⟨[], [], 1000⟩⟩
        ⟨[⟨"user", "go hiking"⟩], []⟩ (fun _ => 0) "hiking" 10 0).2.1.cacheService.db
        = []) :=
  ⟨by decide, rfl, rfl⟩

/-- Claim C8 amended: the final ranked list is cached in MemoryManager's own
in-object dict (not through the CacheService) under the key
`f"memories_{hash(query)}_{limit}"` with TTL `cache_expiry = 3600`; a second
call with the same query and limit within that TTL of a first (miss) call
returns the identical ordered list, performs zero ChatHistoryManager calls,
and leaves the state unchanged. -/
theorem C8_retriever_cache_amended (mm : MemoryManager) (chm : ChatHistoryManager)
    (pyHash : String → Int) (query : String) (limit : Int) (t₁ t₂ : Int)
    (hmiss : assocFind (MemoryManager.cacheKey pyHash query limit) mm.memory_cache = none)
    (hfresh : t₂ - t₁ < MemoryManager.cache_expiry) :
    ((mm.get_relevant_memories chm pyHash query limit t₁).2.1.get_relevant_memories
        chm pyHash query limit t₂).1
      = (mm.get_relevant_memories chm pyHash query limit t₁).1
    ∧ ((mm.get_relevant_memories chm pyHash query limit t₁).2.1.get_relevant_memories
        chm pyHash query limit t₂).2.2 = 0
    ∧ ((mm.get_relevant_memories chm pyHash query limit t₁).2.1.get_relevant_memories
        chm pyHash query limit t₂).2.1
      = (mm.get_relevant_memories chm pyHash query limit t₁).2.1 := by
  have hfirst := @get_relevant_memories_of_cached_none mm chm pyHash query limit t₁
    (cachedLookup_of_find_none hmiss)
  rw [hfirst]
  have hfind2 : assocFind (MemoryManager.cacheKey pyHash query limit)
      ((⟨assocInsert (MemoryManager.cacheKey pyHash query limit)
        ⟨MemoryManager.freshMemories chm query limit, t₁⟩ mm.memory_cache⟩ :
          MemoryManager).memory_cache)
      = some ⟨MemoryManager.freshMemories chm query limit, t₁⟩ :=
    assocFind_assocInsert_self _ _ _
  have hcached2 : MemoryManager.cachedLookup
      ⟨assocInsert (MemoryManager.cacheKey pyHash query limit)
        ⟨MemoryManager.freshMemories chm query limit, t₁⟩ mm.memory_cache⟩
      (MemoryManager.cacheKey pyHash query limit) t₂
      = some (MemoryManager.freshMemories chm query limit) := by
    rw [cachedLookup_of_find_some hfind2, if_pos hfresh]
  rw [get_relevant_memories_of_cached_some hcached2]
  exact ⟨rfl, rfl, rfl⟩

theorem C8_retriever_cache_amended_witness :
    ((MemoryManager.get_relevant_memories ⟨[]⟩ ⟨[⟨"user", "go hiking"⟩], []⟩
        (fun _ => 0) "hiking" 10 0).2.1.get_relevant_memories
        ⟨[⟨"user", "go hiking"⟩], []⟩ (fun _ => 0) "hiking" 10 100).2.2 = 0 :=
  (C8_retriever_cache_amended ⟨[]⟩ ⟨[⟨"user", "go hiking"⟩], []⟩ (fun _ => 0)
    "hiking" 10 0 100 rfl (by decide)).2.1

/-- Claim C10 counterexample: the claim fails for negative limits.  At
limit = -1 (which is ≤ 1), Python floor division gives `-1 // 2 = -1`, and
the `[:-1]` slices keep all but the last match instead of nothing, so with
three matching session messages `get_relevant_memories` returns a nonempty
list. -/
theorem C10_small_limit_counterexample :
    (MemoryManager.get_relevant_memories ⟨[]⟩
        ⟨[⟨"user", "go hiking"⟩, ⟨"user", "hiking again"⟩, ⟨"user", "hiking trip"⟩], []⟩
        (fun _ => 0) "hiking" (-1) 0).1 ≠ [] := by decide

/-- Claim C10 amended: for every query and every limit with 0 ≤ limit ≤ 1
(and a result-cache miss), `get_relevant_memories` returns the empty list
regardless of how many fragments match, because both candidate sources are
capped at `limit // 2 = 0` fragments before ranking. -/
theorem C10_small_limit_amended (mm : MemoryManager) (chm : ChatHistoryManager)
    (pyHash : String → Int) (query : String) (limit : Int) (now : Int)
    (h0 : 0 ≤ limit) (h1 : limit ≤ 1)
    (hmiss : assocFind (MemoryManager.cacheKey pyHash query limit) mm.memory_cache = none) :
    (mm.get_relevant_memories chm pyHash query limit now).1 = []
    ∧ limit.fdiv 2 = 0 := by
  have hdiv : limit.fdiv 2 = 0 := by
    have h01 : limit = 0 ∨ limit = 1 := by omega
    rcases h01 with h | h <;> subst h <;> decide
  rw [get_relevant_memories_of_cached_none (cachedLookup_of_find_none hmiss)]
  refine ⟨?_, hdiv⟩
  show MemoryManager.freshMemories chm query limit = []
  unfold MemoryManager.freshMemories
  rw [hdiv]
  have hcur : MemoryManager.extract_current_session_memories chm query 0 = [] := by
    show pySlice 0 ((((chm.get_session_messages 50).filter
      (MemoryManager.msgMatches (pyLower query.data))).map MemoryManager.formatMsg)) = []
    unfold pySlice
    simp
  have hhist : MemoryManager.extract_historical_memories chm query 0 = [] := by
    show pySlice 0 (MemoryManager.collectFilesGo (pyLower query.data) 0
      (chm.get_history_files 10) []) = []
    unfold pySlice
    simp
  rw [hcur, hhist]
  show pySlice limit (MemoryManager.rank_memories_by_relevance ([] ++ []) query) = []
  rw [List.nil_append]
  have hrank : MemoryManager.rank_memories_by_relevance [] query = [] := rfl
  rw [hrank]
  unfold pySlice
  rw [if_pos h0]
  exact List.take_nil

theorem C10_small_limit_amended_witness :
    (MemoryManager.get_relevant_memories ⟨[]⟩
        ⟨[⟨"user", "go hiking"⟩, ⟨"user", "hiking again"⟩, ⟨"user", "hiking trip"⟩], []⟩
        (fun _ => 0) "hiking" 1 0).1 = [] :=
  (C10_small_limit_amended ⟨[]⟩
    ⟨[⟨"user", "go hiking"⟩, ⟨"user", "hiking again"⟩, ⟨"user", "hiking trip"⟩], []⟩
    (fun _ => 0) "hiking" 1 0 (by decide) (by decide) rfl).1

/-! ### Determinism and shape of `_generate_key` -/

theorem char_eq_of_toNat_eq {a b : Char} (h : a.toNat = b.toNat) : a = b := by
  have hmono : StrictMono Char.toNat := fun _ _ hab => hab
  exact hmono.injective h

theorem lexLe_total : ∀ (a b : List Char), lexLe a b = true ∨ lexLe b a = true := by
  intro a
  induction a with
  | nil => intro b; exact Or.inl rfl
  | cons x as ih =>
    intro b
    cases b with
    | nil => exact Or.inr rfl
    | cons y bs =>
      rw [lexLe, lexLe]
      by_cases h1 : x.toNat < y.toNat
      · left
        rw [if_pos h1]
      · by_cases h2 : y.toNat < x.toNat
        · right
          rw [if_pos h2]
        · rw [if_neg h1, if_neg h2, if_neg h2, if_neg h1]
          exact ih bs

theorem lexLe_trans : ∀ (a b c : List Char),
    lexLe a b = true → lexLe b c = true → lexLe a c = true := by
  intro a
  induction a with
  | nil => intro b c _ _; rfl
  | cons x as ih =>
    intro b c hab hbc
    cases b with
    | nil => rw [lexLe] at hab; exact absurd hab (by simp)
    | cons y bs =>
      cases c with
      | nil => rw [lexLe] at hbc; exact absurd hbc (by simp)
      | cons z cs =>
        rw [lexLe] at hab hbc ⊢
        by_cases hxy : x.toNat < y.toNat
        · -- x < y; from hbc, y ≤ z, so x < z
          by_cases hyz : y.toNat < z.toNat
          · rw [if_pos (by omega : x.toNat < z.toNat)]
          · rw [if_neg hyz] at hbc
            by_cases hzy : z.toNat < y.toNat
            · rw [if_pos hzy] at hbc
              exact Bool.noConfusion hbc
            · rw [if_pos (by omega : x.toNat < z.toNat)]
        · rw [if_neg hxy] at hab
          by_cases hyx : y.toNat < x.toNat
          · rw [if_pos hyx] at hab
            exact Bool.noConfusion hab
          · rw [if_neg hyx] at hab
            -- x = y as code points, hab : lexLe as bs
            by_cases hyz : y.toNat < z.toNat
            · rw [if_pos (by omega : x.toNat < z.toNat)]
            · rw [if_neg hyz] at hbc
              by_cases hzy : z.toNat < y.toNat
              · rw [if_pos hzy] at hbc
                exact Bool.noConfusion hbc
              · rw [if_neg hzy] at hbc
                rw [if_neg (by omega : ¬ x.toNat < z.toNat),
                  if_neg (by omega : ¬ z.toNat < x.toNat)]
                exact ih bs cs hab hbc

theorem lexLe_antisymm : ∀ (a b : List Char),
    lexLe a b = true → lexLe b a = true → a = b := by
  intro a
  induction a with
  | nil =>
    intro b _ hba
    cases b with
    | nil => rfl
    | cons y bs => rw [lexLe] at hba; exact absurd hba (by simp)
  | cons x as ih =>
    intro b hab hba
    cases b with
    | nil => rw [lexLe] at hab; exact absurd hab (by simp)
    | cons y bs =>
      rw [lexLe] at hab hba
      by_cases hxy : x.toNat < y.toNat
      · rw [if_neg (by omega : ¬ y.toNat < x.toNat), if_pos hxy] at hba
        exact Bool.noConfusion hba
      · by_cases hyx : y.toNat < x.toNat
        · rw [if_neg hxy, if_pos hyx] at hab
          exact Bool.noConfusion hab
        · rw [if_neg hxy, if_neg hyx] at hab
          rw [if_neg hyx, if_neg hxy] at hba
          rw [char_eq_of_toNat_eq (by omega : x.toNat = y.toNat), ih bs hab hba]

theorem string_eq_of_data_eq {s t : String} (h : s.data = t.data) : s = t :=
  String.ext h

/-- Two nodup-keyed binding lists that are permutations of each other and
both sorted by key are equal (the sorted order of a key-nodup multiset of
bindings is unique). -/
theorem sorted_keys_perm_eq : ∀ (l₁ l₂ : List (String × JValue)),
    l₁.Perm l₂ →
    List.Pairwise (fun a b : String × JValue => lexLe a.1.data b.1.data = true) l₁ →
    List.Pairwise (fun a b : String × JValue => lexLe a.1.data b.1.data = true) l₂ →
    (assocKeys l₁).Nodup → l₁ = l₂ := by
  intro l₁
  induction l₁ with
  | nil =>
    intro l₂ hp _ _ _
    rw [(hp.symm.eq_nil : l₂ = [])]
  | cons a t₁ ih =>
    intro l₂ hp hs₁ hs₂ hnd
    have ha₂ : a ∈ l₂ := hp.mem_iff.mp (List.mem_cons_self _ _)
    cases l₂ with
    | nil => exact absurd hp.eq_nil (List.cons_ne_nil _ _)
    | cons b t₂ =>
      have hb₁ : b ∈ a :: t₁ := hp.mem_iff.mpr (List.mem_cons_self _ _)
      have hab : a = b := by
        rcases List.mem_cons.mp hb₁ with h | hbt
        · exact h.symm
        · rcases List.mem_cons.mp ha₂ with h | hat
          · exact h
          · have h₁ : lexLe a.1.data b.1.data = true := (List.pairwise_cons.mp hs₁).1 b hbt
            have h₂ : lexLe b.1.data a.1.data = true := (List.pairwise_cons.mp hs₂).1 a hat
            have hkey : a.1 = b.1 := string_eq_of_data_eq (lexLe_antisymm _ _ h₁ h₂)
            rw [assocKeys_cons, List.nodup_cons] at hnd
            exact absurd (hkey ▸ mem_assocKeys.mpr ⟨b.2, by simpa using hbt⟩) hnd.1
      subst hab
      have hpt : t₁.Perm t₂ := hp.cons_inv
      rw [ih t₂ hpt (List.pairwise_cons.mp hs₁).2 (List.pairwise_cons.mp hs₂).2
        (by rw [assocKeys_cons, List.nodup_cons] at hnd; exact hnd.2)]

theorem canonPairs_eq_map : ∀ (kvs : List (String × JValue)),
    canonPairs kvs = kvs.map (fun p => (p.1, canon p.2)) := by
  intro kvs
  induction kvs with
  | nil => rfl
  | cons p rest ih =>
    obtain ⟨k, v⟩ := p
    rw [canonPairs, ih]
    rfl

theorem assocKeys_canonPairs (kvs : List (String × JValue)) :
    assocKeys (canonPairs kvs) = assocKeys kvs := by
  rw [canonPairs_eq_map]
  unfold assocKeys
  rw [List.map_map]
  rfl

theorem wfKeysPairs_iff : ∀ (l : List (String × JValue)),
    wfKeysPairs l = true ↔ ∀ p ∈ l, wfKeys p.2 = true := by
  intro l
  induction l with
  | nil => simp [wfKeysPairs]
  | cons p rest ih =>
    obtain ⟨k, v⟩ := p
    rw [wfKeysPairs, Bool.and_eq_true, ih]
    constructor
    · rintro ⟨h₁, h₂⟩ q hq
      rcases List.mem_cons.mp hq with h | h
      · rw [h]; exact h₁
      · exact h₂ q h
    · intro h
      exact ⟨h (k, v) (List.mem_cons_self _ _),
        fun q hq => h q (List.mem_cons_of_mem _ hq)⟩

theorem wfKeysList_iff : ∀ (l : List JValue),
    wfKeysList l = true ↔ ∀ x ∈ l, wfKeys x = true := by
  intro l
  induction l with
  | nil => simp [wfKeysList]
  | cons x rest ih =>
    rw [wfKeysList, Bool.and_eq_true, ih]
    constructor
    · rintro ⟨h₁, h₂⟩ y hy
      rcases List.mem_cons.mp hy with h | h
      · rw [h]; exact h₁
      · exact h₂ y h
    · intro h
      exact ⟨h x (List.mem_cons_self _ _), fun y hy => h y (List.mem_cons_of_mem _ hy)⟩

mutual

theorem canon_eq_of_jequiv : ∀ {a b : JValue}, JEquiv a b →
    wfKeys a = true → wfKeys b = true → canon a = canon b
  | _, _, .null, _, _ => rfl
  | _, _, .bool _, _, _ => rfl
  | _, _, .num _, _, _ => rfl
  | _, _, .str _, _, _ => rfl
  | _, _, .arr h, ha, hb => by
    simp only [canon]
    exact congrArg JValue.arr (canonList_eq_of_jequivList h ha hb)
  | _, _, @JEquiv.obj kvs mid kvs₁ hpairs hperm, ha, hb => by
    simp only [canon]
    have hauw : (decide ((assocKeys kvs).Nodup) && wfKeysPairs kvs) = true := ha
    have hbuw : (decide ((assocKeys kvs₁).Nodup) && wfKeysPairs kvs₁) = true := hb
    rw [Bool.and_eq_true] at hauw hbuw
    have hndk : (assocKeys kvs).Nodup := of_decide_eq_true hauw.1
    have hwpmid : wfKeysPairs mid = true := by
      rw [wfKeysPairs_iff]
      intro p hp
      exact (wfKeysPairs_iff kvs₁).mp hbuw.2 p (hperm.mem_iff.mp hp)
    have hcp : canonPairs kvs = canonPairs mid :=
      canonPairs_eq_of_jequivPairs hpairs hauw.2 hwpmid
    have hpermk : (canonPairs kvs).Perm (canonPairs kvs₁) := by
      rw [hcp, canonPairs_eq_map, canonPairs_eq_map]
      exact hperm.map _
    haveI : IsTotal (String × JValue) (fun a b => lexLe a.1.data b.1.data = true) :=
      ⟨fun a b => lexLe_total _ _⟩
    haveI : IsTrans (String × JValue) (fun a b => lexLe a.1.data b.1.data = true) :=
      ⟨fun a b c => lexLe_trans _ _ _⟩
    apply congrArg JValue.obj
    apply sorted_keys_perm_eq
    · exact ((List.perm_insertionSort _ _).trans hpermk).trans
        (List.perm_insertionSort _ _).symm
    · exact List.sorted_insertionSort _ _
    · exact List.sorted_insertionSort _ _
    · have h1 : (assocKeys (canonPairs kvs)).Nodup := by
        rw [assocKeys_canonPairs]
        exact hndk
      exact (((List.perm_insertionSort _ _).map Prod.fst).nodup_iff).mpr h1

theorem canonList_eq_of_jequivList : ∀ {xs ys : List JValue}, JEquivList xs ys →
    wfKeysList xs = true → wfKeysList ys = true → canonList xs = canonList ys
  | _, _, .nil, _, _ => rfl
  | _, _, @JEquivList.cons x y xs ys h hs, ha, hb => by
    have ha' : wfKeys x = true ∧ wfKeysList xs = true := by
      have h₀ : (wfKeys x && wfKeysList xs) = true := ha
      rwa [Bool.and_eq_true] at h₀
    have hb' : wfKeys y = true ∧ wfKeysList ys = true := by
      have h₀ : (wfKeys y && wfKeysList ys) = true := hb
      rwa [Bool.and_eq_true] at h₀
    simp only [canonList]
    rw [canon_eq_of_jequiv h ha'.1 hb'.1, canonList_eq_of_jequivList hs ha'.2 hb'.2]

theorem canonPairs_eq_of_jequivPairs : ∀ {ps qs : List (String × JValue)},
    JEquivPairs ps qs →
    wfKeysPairs ps = true → wfKeysPairs qs = true → canonPairs ps = canonPairs qs
  | _, _, .nil, _, _ => rfl
  | _, _, @JEquivPairs.cons k v w ps qs h hs, ha, hb => by
    have ha' : wfKeys v = true ∧ wfKeysPairs ps = true := by
      have h₀ : (wfKeys v && wfKeysPairs ps) = true := ha
      rwa [Bool.and_eq_true] at h₀
    have hb' : wfKeys w = true ∧ wfKeysPairs qs = true := by
      have h₀ : (wfKeys w && wfKeysPairs qs) = true := hb
      rwa [Bool.and_eq_true] at h₀
    simp only [canonPairs]
    rw [canon_eq_of_jequiv h ha'.1 hb'.1, canonPairs_eq_of_jequivPairs hs ha'.2 hb'.2]

end

theorem hexDigit_isHex : ∀ n : Fin 16, isHexDigitChar (hexDigit n.val) = true := by decide

/-- Claim C9: `_generate_key` is deterministic — structurally equal payloads
(dictionary key order irrelevant at every nesting level, keys nodup as in a
Python dict) yield identical keys for every namespace — and every produced
key has the form `prefix ++ ":" ++ hexadecimal digest of the canonicalized
(keys-sorted) payload bytes` (every digest character is a hex digit). -/
theorem C9_key_derivation (md5 : List Nat → List Nat) (ns : String) (a b : JValue) :
    (JEquiv a b → wfKeys a = true → wfKeys b = true →
      CacheService.generate_key md5 ns a = CacheService.generate_key md5 ns b)
    ∧ CacheService.generate_key md5 ns a
        = ns ++ ":" ++ hexOfBytes (md5 (utf8Encode (serialize (canon a))))
    ∧ (∀ c ∈ (hexOfBytes (md5 (utf8Encode (dumps a)))).data, isHexDigitChar c = true) := by
  refine ⟨?_, rfl, ?_⟩
  · intro heq hwa hwb
    unfold CacheService.generate_key dumps
    rw [canon_eq_of_jequiv heq hwa hwb]
  · intro c hc
    have hdata : (hexOfBytes (md5 (utf8Encode (dumps a)))).data
        = ((md5 (utf8Encode (dumps a))).map
            (fun b => [hexDigit (b / 16 % 16), hexDigit (b % 16)])).flatten := rfl
    rw [hdata, List.mem_flatten] at hc
    obtain ⟨l, hl, hcl⟩ := hc
    obtain ⟨bn, _, hbl⟩ := List.mem_map.mp hl
    subst hbl
    rcases List.mem_cons.mp hcl with h | h
    · rw [h]
      exact hexDigit_isHex ⟨bn / 16 % 16, Nat.mod_lt _ (by omega)⟩
    · rw [List.mem_singleton] at h
      rw [h]
      exact hexDigit_isHex ⟨bn % 16, Nat.mod_lt _ (by omega)⟩

theorem C9_key_derivation_witness :
    CacheService.generate_key (fun _ => []) "llm" (.obj [("b", .num 1), ("a", .str "x")])
      = CacheService.generate_key (fun _ => []) "llm" (.obj [("a", .str "x"), ("b", .num 1)]) :=
  (C9_key_derivation (fun _ => []) "llm"
    (.obj [("b", .num 1), ("a", .str "x")]) (.obj [("a", .str "x"), ("b", .num 1)])).1
    (JEquiv.obj
      (JEquivPairs.cons (JEquiv.num 1) (JEquivPairs.cons (JEquiv.str "x") JEquivPairs.nil))
      (List.Perm.swap _ _ _))
    (by decide) (by decide)
